import Mathlib

/-!
# ss::CircularBuffer — a verification development

Shallow embedding of `src/CircularBuffer.hpp` (class template `ss::CircularBuffer<T>`)
and of the driver `src/main.cpp`.

Modelling decisions.

* `size_t` fields are `Nat`.  Every index the class computes is `m_tail + 1`,
  `m_head + 1`, `m_count + 1` or `m_head + i` with `i < m_count`; on a buffer whose
  storage was obtained from `new T[m_capacity]` each operand is at most `m_capacity`,
  and an allocation of more than `PTRDIFF_MAX` bytes does not succeed, so none of the
  sums reaches `2^64` and unbounded arithmetic is exact.
* The block `m_buffer` points to is a `List T` (slot `i` of the block is element `i`).
  `new T[n]` yields `n` slots of indeterminate content: the content is a parameter
  `junk : Nat → T` of every allocating function and the theorems hold for all of them.
  Reading a slot that was never written (the copy loops do) yields that content.
* Undefined behaviour (a slot index outside the block, `%` by zero) is the result
  `none`; a defined result is `some _`.
* Text sent to `std::cout` is returned next to the new state; `std::endl` is `"\n"`.
* Section `Mem` places the blocks in a heap of allocations so that the pointer
  `m_buffer` and the freshness of `new` are explicit.
-/

namespace ss

/-- The data members of `CircularBuffer<T>`; `m_buffer` is the content of the block
the pointer `T *m_buffer` refers to. -/
structure CircularBuffer (α : Type) where
  m_buffer : List α
  m_capacity : Nat
  m_head : Nat
  m_tail : Nat
  m_count : Nat
deriving DecidableEq, Repr

/-- Default buffer capacity: `static constexpr size_t def_capacity = 5`. -/
def def_capacity : Nat := 5

/-- Allocation `new T[n]`: a block of `n` slots, slot `i` holding the indeterminate
value `junk i`. -/
def newArray {α : Type} (junk : Nat → α) (n : Nat) : List α :=
  (List.range n).map junk

/-- Reading `buf[i]`; outside the block the behaviour is undefined. -/
def readSlot {α : Type} (buf : List α) (i : Nat) : Option α :=
  buf[i]?

/-- Assignment `buf[i] = v`; outside the block the behaviour is undefined. -/
def writeSlot {α : Type} (buf : List α) (i : Nat) (v : α) : Option (List α) :=
  if i < buf.length then some (buf.set i v) else none

/-- Remainder `a % n` on `size_t`; a zero divisor is undefined behaviour. -/
def modSize (a n : Nat) : Option Nat :=
  if n = 0 then none else some (a % n)

namespace CircularBuffer

variable {α : Type}

/-- Default constructor `CircularBuffer()`. -/
def ctor_default (junk : Nat → α) : CircularBuffer α :=
  { m_capacity := def_capacity, m_head := 0, m_tail := 0, m_count := 0,
    m_buffer := newArray junk def_capacity }

/-- Parameterized constructor `CircularBuffer(size_t capacity)`: the new object and the
text printed. -/
def ctor_capacity (junk : Nat → α) (capacity : Nat) : CircularBuffer α × String :=
  if capacity = 0 then
    ({ m_capacity := def_capacity, m_head := 0, m_tail := 0, m_count := 0,
       m_buffer := newArray junk def_capacity },
     "Capacity must be greater than zero.\n")
  else
    ({ m_capacity := capacity, m_head := 0, m_tail := 0, m_count := 0,
       m_buffer := newArray junk capacity }, "")

/-- The element-wise copy loop `for (i = 0; i < m_capacity; ++i) m_buffer[i] = other.m_buffer[i]`
shared by the copy constructor and `operator=`: `n` iterations are left, `i` is the
loop counter, `dst` the destination block. -/
def copyLoop (src : List α) : Nat → Nat → List α → Option (List α)
  | 0, _, dst => some dst
  | n + 1, i, dst =>
    match readSlot src i with
    | none => none
    | some v =>
      match writeSlot dst i v with
      | none => none
      | some dst1 => copyLoop src n (i + 1) dst1

/-- Copy constructor `CircularBuffer(const CircularBuffer &other)`. -/
def ctor_copy (junk : Nat → α) (other : CircularBuffer α) : Option (CircularBuffer α) :=
  match copyLoop other.m_buffer other.m_capacity 0 (newArray junk other.m_capacity) with
  | none => none
  | some buf =>
    some { m_capacity := other.m_capacity, m_head := other.m_head, m_tail := other.m_tail,
           m_count := other.m_count, m_buffer := buf }

/-- Member `is_full()`. -/
def is_full (b : CircularBuffer α) : Bool :=
  b.m_count == b.m_capacity

/-- Member `is_empty()`. -/
def is_empty (b : CircularBuffer α) : Bool :=
  b.m_count == 0

/-- Member `push(const T &item)`. -/
def push (b : CircularBuffer α) (item : α) : Option (CircularBuffer α) :=
  match writeSlot b.m_buffer b.m_tail item with
  | none => none
  | some buf =>
    match modSize (b.m_tail + 1) b.m_capacity with
    | none => none
    | some t =>
      let b2 : CircularBuffer α := { b with m_buffer := buf, m_tail := t }
      if is_full b2 then
        match modSize (b2.m_head + 1) b2.m_capacity with
        | none => none
        | some h => some { b2 with m_head := h }
      else
        some { b2 with m_count := b2.m_count + 1 }

/-- Member `pop()`: the new state and the text printed. -/
def pop (b : CircularBuffer α) : Option (CircularBuffer α × String) :=
  if is_empty b then
    some (b, "Buffer is empty. Cannot remove element.\n")
  else
    match modSize (b.m_head + 1) b.m_capacity with
    | none => none
    | some h => some ({ b with m_head := h, m_count := b.m_count - 1 }, "")

/-- The loop of `display()`: `n` iterations are left, `i` is the loop counter; each
iteration prints `m_buffer[(m_head + i) % m_capacity]` followed by `" "`. -/
def displayLoop [ToString α] (b : CircularBuffer α) : Nat → Nat → Option String
  | 0, _ => some ""
  | n + 1, i =>
    match modSize (b.m_head + i) b.m_capacity with
    | none => none
    | some k =>
      match readSlot b.m_buffer k with
      | none => none
      | some v =>
        match displayLoop b n (i + 1) with
        | none => none
        | some rest => some (toString v ++ " " ++ rest)

/-- Member `display()`: the text printed (the object is `const`). -/
def display [ToString α] (b : CircularBuffer α) : Option String :=
  if is_empty b then
    some "Buffer is empty.\n"
  else
    match displayLoop b b.m_count 0 with
    | none => none
    | some body => some (body ++ "\n")

/-- Copy assignment `operator=(const CircularBuffer &other)`.  The flag `sameObject` is
the outcome of the address test `this == &other`; the block previously owned by `this`
is not released. -/
def operator_assign (junk : Nat → α) (this other : CircularBuffer α) (sameObject : Bool) :
    Option (CircularBuffer α) :=
  if sameObject then some this
  else
    match copyLoop other.m_buffer other.m_capacity 0 (newArray junk other.m_capacity) with
    | none => none
    | some buf =>
      some { m_capacity := other.m_capacity, m_head := other.m_head, m_tail := other.m_tail,
             m_count := other.m_count, m_buffer := buf }

/-- The comparison loop of `operator==`: `n` iterations are left, `i` is the loop
counter; the first pair of slots that differ ends the loop with `false`. -/
def eqLoop [BEq α] (a b : CircularBuffer α) : Nat → Nat → Option Bool
  | 0, _ => some true
  | n + 1, i =>
    match modSize (a.m_head + i) a.m_capacity with
    | none => none
    | some ka =>
      match readSlot a.m_buffer ka with
      | none => none
      | some x =>
        match modSize (b.m_head + i) b.m_capacity with
        | none => none
        | some kb =>
          match readSlot b.m_buffer kb with
          | none => none
          | some y => if x != y then some false else eqLoop a b n (i + 1)

/-- Member `operator==(const CircularBuffer &other)`, `a` being `*this`. -/
def operator_eq [BEq α] (a other : CircularBuffer α) : Option Bool :=
  if a.m_capacity != other.m_capacity || a.m_count != other.m_count then some false
  else eqLoop a other a.m_count 0

/-- Member `operator!=(const CircularBuffer &other)`. -/
def operator_ne [BEq α] (a other : CircularBuffer α) : Option Bool :=
  match operator_eq a other with
  | none => none
  | some r => some (!r)

/-- The slots the loops of `display()` and `operator==` visit, in loop order:
`m_buffer[(m_head + i) % m_capacity]` for the counter values `i, i+1, ..., i+n-1`. -/
def enumLoop (b : CircularBuffer α) : Nat → Nat → Option (List α)
  | 0, _ => some []
  | n + 1, i =>
    match modSize (b.m_head + i) b.m_capacity with
    | none => none
    | some k =>
      match readSlot b.m_buffer k with
      | none => none
      | some v =>
        match enumLoop b n (i + 1) with
        | none => none
        | some rest => some (v :: rest)

/-- Logical enumeration of a buffer: the live elements oldest first, read from the slots
`(m_head + i) % m_capacity` for `i` in `[0, m_count)`. -/
def enumerate (b : CircularBuffer α) : Option (List α) :=
  enumLoop b b.m_count 0

/-- Pushing the elements of a list in order, as the driver does with consecutive
`push` calls. -/
def pushAll : List α → CircularBuffer α → Option (CircularBuffer α)
  | [], b => some b
  | x :: xs, b =>
    match push b x with
    | none => none
    | some b1 => pushAll xs b1

end CircularBuffer

/-- A mutating call on one buffer object. -/
inductive Op (α : Type) where
  | push (item : α)
  | pop
deriving DecidableEq, Repr

namespace CircularBuffer

variable {α : Type}

/-- Effect of one mutating call on the object state (printed text dropped). -/
def applyOp (b : CircularBuffer α) : Op α → Option (CircularBuffer α)
  | Op.push x => push b x
  | Op.pop => (pop b).map Prod.fst

/-- Effect of a sequence of mutating calls, first call first. -/
def applyOps : List (Op α) → CircularBuffer α → Option (CircularBuffer α)
  | [], b => some b
  | o :: os, b =>
    match applyOp b o with
    | none => none
    | some b1 => applyOps os b1

/-- The states a program can bring a buffer object into: it is built by one of the three
constructors and then changed by `push`, `pop` and `operator=`, every source object of a
copy or an assignment being reachable itself. -/
inductive Reachable : CircularBuffer α → Prop where
  | default (junk : Nat → α) : Reachable (ctor_default junk)
  | capacity (junk : Nat → α) (n : Nat) : Reachable (ctor_capacity junk n).1
  | copy (junk : Nat → α) {other b : CircularBuffer α} :
      Reachable other → ctor_copy junk other = some b → Reachable b
  | push {b b1 : CircularBuffer α} (x : α) :
      Reachable b → CircularBuffer.push b x = some b1 → Reachable b1
  | pop {b b1 : CircularBuffer α} {out : String} :
      Reachable b → CircularBuffer.pop b = some (b1, out) → Reachable b1
  | assign (junk : Nat → α) {this other b : CircularBuffer α} (sameObject : Bool) :
      Reachable this → Reachable other → (sameObject = true → other = this) →
      operator_assign junk this other sameObject = some b → Reachable b

/-- The representation invariant of the class. -/
structure Inv (b : CircularBuffer α) : Prop where
  cap_pos : 0 < b.m_capacity
  size_eq : b.m_buffer.length = b.m_capacity
  head_lt : b.m_head < b.m_capacity
  count_le : b.m_count ≤ b.m_capacity
  tail_eq : b.m_tail = (b.m_head + b.m_count) % b.m_capacity

end CircularBuffer


/-! ## Objects in memory

The functions above act on the fields of one object together with the content of the
block it owns.  Below the blocks live in a heap and an object holds the address of its
block, so that two objects can be asked whether they share storage. -/

namespace Mem

/-- The free store: the blocks allocated so far, the address of a block being its
position.  `new` appends a block; no block is ever released by the operations modelled
here (`operator=` does not `delete[]` the previous block). -/
abbrev Heap (α : Type) := List (List α)

/-- A `CircularBuffer<T>` object as it lies in memory: `m_buffer` is the address of the
block. -/
structure Object where
  m_buffer : Nat
  m_capacity : Nat
  m_head : Nat
  m_tail : Nat
  m_count : Nat
deriving DecidableEq, Repr

variable {α : Type}

/-- The fields of an object together with the content of the block it points to;
a dangling pointer is undefined behaviour. -/
def load (h : Heap α) (o : Object) : Option (CircularBuffer α) :=
  match h[o.m_buffer]? with
  | none => none
  | some blk =>
    some { m_buffer := blk, m_capacity := o.m_capacity, m_head := o.m_head,
           m_tail := o.m_tail, m_count := o.m_count }

/-- Writing back the state of the object whose block is at address `p`. -/
def store (h : Heap α) (p : Nat) (b : CircularBuffer α) : Heap α × Object :=
  (h.set p b.m_buffer,
   { m_buffer := p, m_capacity := b.m_capacity, m_head := b.m_head, m_tail := b.m_tail,
     m_count := b.m_count })

/-- Placing the block obtained from `new T[n]` at a fresh address. -/
def alloc (h : Heap α) (b : CircularBuffer α) : Heap α × Object :=
  (h ++ [b.m_buffer],
   { m_buffer := h.length, m_capacity := b.m_capacity, m_head := b.m_head,
     m_tail := b.m_tail, m_count := b.m_count })

/-- Constructor `CircularBuffer(size_t capacity)` in memory. -/
def ctor_capacity (junk : Nat → α) (capacity : Nat) (h : Heap α) : Heap α × Object :=
  alloc h (CircularBuffer.ctor_capacity junk capacity).1

/-- Default constructor in memory. -/
def ctor_default (junk : Nat → α) (h : Heap α) : Heap α × Object :=
  alloc h (CircularBuffer.ctor_default junk)

/-- Copy constructor in memory: the new object points to a freshly allocated block. -/
def ctor_copy (junk : Nat → α) (h : Heap α) (other : Object) : Option (Heap α × Object) :=
  match load h other with
  | none => none
  | some src =>
    match CircularBuffer.ctor_copy junk src with
    | none => none
    | some b => some (alloc h b)

/-- Member `push` in memory: the write goes to the block of `o`. -/
def push (h : Heap α) (o : Object) (item : α) : Option (Heap α × Object) :=
  match load h o with
  | none => none
  | some b =>
    match CircularBuffer.push b item with
    | none => none
    | some b1 => some (store h o.m_buffer b1)

/-- Member `pop` in memory (printed text dropped). -/
def pop (h : Heap α) (o : Object) : Option (Heap α × Object) :=
  match load h o with
  | none => none
  | some b =>
    match CircularBuffer.pop b with
    | none => none
    | some (b1, _) => some (store h o.m_buffer b1)

/-- Copy assignment in memory: unless `this` is `other`, `this` is redirected to a freshly
allocated block and its previous block stays allocated. -/
def operator_assign (junk : Nat → α) (h : Heap α) (this other : Object) (sameObject : Bool) :
    Option (Heap α × Object) :=
  match load h this, load h other with
  | some t, some src =>
    match CircularBuffer.operator_assign junk t src sameObject with
    | none => none
    | some b => if sameObject then some (h, this) else some (alloc h b)
  | _, _ => none

/-- Logical enumeration of an object in memory. -/
def enumerate (h : Heap α) (o : Object) : Option (List α) :=
  match load h o with
  | none => none
  | some b => CircularBuffer.enumerate b

/-- Member `display` in memory. -/
def display [ToString α] (h : Heap α) (o : Object) : Option String :=
  match load h o with
  | none => none
  | some b => CircularBuffer.display b

/-- Member `operator==` in memory. -/
def operator_eq [BEq α] (h : Heap α) (a other : Object) : Option Bool :=
  match load h a, load h other with
  | some x, some y => CircularBuffer.operator_eq x y
  | _, _ => none

/-- Member `operator!=` in memory. -/
def operator_ne [BEq α] (h : Heap α) (a other : Object) : Option Bool :=
  match load h a, load h other with
  | some x, some y => CircularBuffer.operator_ne x y
  | _, _ => none

/-- One mutating call on the object `o`. -/
def applyOp (h : Heap α) (o : Object) : Op α → Option (Heap α × Object)
  | Op.push x => push h o x
  | Op.pop => pop h o

/-- A sequence of mutating calls on one object, first call first. -/
def applyOps : List (Op α) → Heap α → Object → Option (Heap α × Object)
  | [], h, o => some (h, o)
  | op :: ops, h, o =>
    match applyOp h o op with
    | none => none
    | some (h1, o1) => applyOps ops h1 o1

end Mem

/-! ## The driver `main` -/

/-- What `main` computes: the text it prints, and the logical content of the buffers at
the points named by the line of `src/main.cpp` just executed. -/
structure MainTrace where
  /-- buffer1 after `push(1); push(2); push(3)` (line 12) -/
  buffer1_line12 : List Int
  /-- buffer2 right after its copy construction (line 18) -/
  buffer2_line18 : List Int
  /-- buffer1 after `push(4); push(5); push(6)` (line 26) -/
  buffer1_line26 : List Int
  /-- buffer2 at the same point (line 26) -/
  buffer2_line26 : List Int
  /-- buffer3 after `buffer3 = buffer2` (line 33) -/
  buffer3_line33 : List Int
  /-- value of `buffer2 == buffer3` (line 39) -/
  eq_line39 : Bool
  /-- buffer2 after `buffer3.pop()` (line 49) -/
  buffer2_line49 : List Int
  /-- buffer3 after `buffer3.pop()` (line 49) -/
  buffer3_line49 : List Int
  /-- value of `buffer2 != buffer3` (line 57) -/
  ne_line57 : Bool
  /-- everything written to `std::cout` -/
  out : String
deriving DecidableEq, Repr


/-- Lines 7-15 of `main`: the heap, `buffer1`, its logical content and the text printed. -/
def main_lines7_15 (junk : Nat → Int) :
    Option (Mem.Heap Int × Mem.Object × List Int × String) := do
  let (h, buffer1) := Mem.ctor_capacity junk 5 ([] : Mem.Heap Int)
  let (h, buffer1) ← Mem.push h buffer1 1
  let (h, buffer1) ← Mem.push h buffer1 2
  let (h, buffer1) ← Mem.push h buffer1 3
  let e1 ← Mem.enumerate h buffer1
  let d ← Mem.display h buffer1
  pure (h, buffer1, e1, "Buffer 1 after adding 3 elements: " ++ d)

/-- Lines 18-21 of `main`: the heap, `buffer2`, its logical content and the text printed. -/
def main_lines18_21 (junk : Nat → Int) (h : Mem.Heap Int) (buffer1 : Mem.Object) :
    Option (Mem.Heap Int × Mem.Object × List Int × String) := do
  let (h, buffer2) ← Mem.ctor_copy junk h buffer1
  let e2 ← Mem.enumerate h buffer2
  let d ← Mem.display h buffer2
  pure (h, buffer2, e2, "Buffer 2 (copy of Buffer 1): " ++ d)

/-- Lines 24-29 of `main`: the heap, `buffer1`, the logical content of `buffer1` and of
`buffer2`, and the text printed. -/
def main_lines24_29 (h : Mem.Heap Int) (buffer1 buffer2 : Mem.Object) :
    Option (Mem.Heap Int × Mem.Object × List Int × List Int × String) := do
  let (h, buffer1) ← Mem.push h buffer1 4
  let (h, buffer1) ← Mem.push h buffer1 5
  let (h, buffer1) ← Mem.push h buffer1 6
  let e1 ← Mem.enumerate h buffer1
  let e2 ← Mem.enumerate h buffer2
  let d ← Mem.display h buffer1
  pure (h, buffer1, e1, e2,
    "Buffer 1 after adding 3 more elements (exceeding capacity): " ++ d)

/-- Lines 32-46 of `main`: the heap, `buffer3`, its logical content, the value of
`buffer2 == buffer3` and the text printed. -/
def main_lines32_46 (junk : Nat → Int) (h : Mem.Heap Int) (buffer2 : Mem.Object) :
    Option (Mem.Heap Int × Mem.Object × List Int × Bool × String) := do
  let (h, buffer3) := Mem.ctor_capacity junk 5 h
  let (h, buffer3) ← Mem.operator_assign junk h buffer3 buffer2 false
  let e3 ← Mem.enumerate h buffer3
  let d ← Mem.display h buffer3
  let eq23 ← Mem.operator_eq h buffer2 buffer3
  pure (h, buffer3, e3, eq23,
    "Buffer 3 (assigned from Buffer2): " ++ d ++
      (if eq23 then "Buffer 2 is equal to Buffer 3.\n"
       else "Buffer 2 is not equal to Buffer 3.\n"))

/-- Lines 49-60 of `main`: the logical content of `buffer2` and of `buffer3`, the value
of `buffer2 != buffer3` and the text printed. -/
def main_lines49_60 (h : Mem.Heap Int) (buffer2 buffer3 : Mem.Object) :
    Option (List Int × List Int × Bool × String) := do
  let (h, buffer3) ← Mem.pop h buffer3
  let e2 ← Mem.enumerate h buffer2
  let e3 ← Mem.enumerate h buffer3
  let d2 ← Mem.display h buffer2
  let d3 ← Mem.display h buffer3
  let ne23 ← Mem.operator_ne h buffer2 buffer3
  pure (e2, e3, ne23,
    "Buffer 2: " ++ d2 ++ "Buffer 3: " ++ d3 ++
      (if ne23 then "Buffer 2 is not equal to Buffer 3.\n" else ""))

/-- The function `main` of `src/main.cpp`, run on an empty heap. -/
def main (junk : Nat → Int) : Option MainTrace := do
  let (h, buffer1, e1, out1) ← main_lines7_15 junk
  let (h, buffer2, e2, out2) ← main_lines18_21 junk h buffer1
  let (h, _, e1b, e2b, out3) ← main_lines24_29 h buffer1 buffer2
  let (h, buffer3, e3, eq23, out4) ← main_lines32_46 junk h buffer2
  let (e2c, e3c, ne23, out5) ← main_lines49_60 h buffer2 buffer3
  pure { buffer1_line12 := e1, buffer2_line18 := e2, buffer1_line26 := e1b,
         buffer2_line26 := e2b, buffer3_line33 := e3, eq_line39 := eq23,
         buffer2_line49 := e2c, buffer3_line49 := e3c, ne_line57 := ne23,
         out := out1 ++ out2 ++ out3 ++ out4 ++ out5 }

/-! ## Iterated `pop`, the display format of the specification, agreement on live slots -/

namespace CircularBuffer

variable {α : Type}

/-- Calling `pop()` `k` times in a row (printed text dropped). -/
def popN : Nat → CircularBuffer α → Option (CircularBuffer α)
  | 0, b => some b
  | k + 1, b =>
    match pop b with
    | none => none
    | some (b1, _) => popN k b1

/-- The display format in the words of the specification: the elements in their textual
representation, separated by a single space and terminated by a line break. -/
def display_spec [ToString α] (e : List α) : String :=
  " ".intercalate (e.map toString) ++ "\n"

/-- Two buffers that differ at most in stale slots: same capacity, head, tail and count,
and the same content in every live slot `(m_head + i) % m_capacity`, `i < m_count`. -/
def SameLive (a b : CircularBuffer α) : Prop :=
  a.m_capacity = b.m_capacity ∧ a.m_head = b.m_head ∧ a.m_tail = b.m_tail ∧
    a.m_count = b.m_count ∧
    ∀ i, i < a.m_count →
      a.m_buffer[(a.m_head + i) % a.m_capacity]? = b.m_buffer[(a.m_head + i) % a.m_capacity]?

end CircularBuffer

/-! ## Concrete buffers of the examples -/

/-- Indeterminate content used by the examples: every fresh slot holds 0. -/
def junk0 : Nat → Int := fun _ => 0

/-- A fresh `CircularBuffer<int>` of capacity 5. -/
def fresh5 : CircularBuffer Int := (CircularBuffer.ctor_capacity junk0 5).1

/-- The buffer of capacity 5 after `push` of 1, 2, 3, 4, 5, 6: the sixth push wrapped
around and overwrote slot 0. -/
def bufA : CircularBuffer Int :=
  { m_buffer := [6, 2, 3, 4, 5], m_capacity := 5, m_head := 1, m_tail := 1, m_count := 5 }

/-- The buffer of capacity 5 after `push` of 2, 3, 4, 5, 6 onto a fresh buffer. -/
def bufB : CircularBuffer Int :=
  { m_buffer := [2, 3, 4, 5, 6], m_capacity := 5, m_head := 0, m_tail := 0, m_count := 5 }

/-- The buffer of capacity 5 after `push` of 1, 2, 3. -/
def buf123 : CircularBuffer Int :=
  { m_buffer := [1, 2, 3, 0, 0], m_capacity := 5, m_head := 0, m_tail := 3, m_count := 3 }

/-- The buffer of capacity 5 after `push` of 9. -/
def buf9 : CircularBuffer Int :=
  { m_buffer := [9, 0, 0, 0, 0], m_capacity := 5, m_head := 0, m_tail := 1, m_count := 1 }

/-- A heap holding one block, that of a buffer with content 1, 2, 3. -/
def heap123 : Mem.Heap Int := [[1, 2, 3, 0, 0]]

/-- The object owning block 0 of `heap123`; it loads `buf123`. -/
def obj123 : Mem.Object :=
  { m_buffer := 0, m_capacity := 5, m_head := 0, m_tail := 3, m_count := 3 }

/-- A heap holding the block of a buffer with content 9 and that of a buffer with content
1, 2, 3. -/
def heap9_123 : Mem.Heap Int := [[9, 0, 0, 0, 0], [1, 2, 3, 0, 0]]

/-- The object owning block 0 of `heap9_123`; it loads `buf9`. -/
def objC : Mem.Object :=
  { m_buffer := 0, m_capacity := 5, m_head := 0, m_tail := 1, m_count := 1 }

/-- The object owning block 1 of `heap9_123`; it loads `buf123`. -/
def objB : Mem.Object :=
  { m_buffer := 1, m_capacity := 5, m_head := 0, m_tail := 3, m_count := 3 }

/-- The buffer of capacity 5 after `push` of 0, 1, 2, 3, 4, 5, 6: two pushes wrapped
around. -/
def bufA2 : CircularBuffer Int :=
  { m_buffer := [5, 6, 2, 3, 4], m_capacity := 5, m_head := 2, m_tail := 2, m_count := 5 }

/-- A buffer with the fields and live slots of `buf123` and other content in the two stale
slots. -/
def buf123stale : CircularBuffer Int :=
  { m_buffer := [1, 2, 3, 7, 8], m_capacity := 5, m_head := 0, m_tail := 3, m_count := 3 }

/-! ## An element type with a non-reflexive comparison -/

/-- A model of an element type `T` whose `!=` is not the negation of a reflexive equality,
as `double` with its NaN: a value is either a number or `nan`. -/
inductive Dbl where
  | val (n : Int)
  | nan

/-- The comparison `==` of `Dbl`: two numbers are compared as numbers, and `nan` equals
nothing, itself included (so `nan != nan` is true, as for a `double` NaN). -/
def Dbl.beq : Dbl → Dbl → Bool
  | Dbl.val m, Dbl.val n => m == n
  | _, _ => false

instance instBEqDbl : BEq Dbl := ⟨Dbl.beq⟩

/-- Indeterminate content used by the `Dbl` examples: every fresh slot holds the number 0. -/
def junkD : Nat → Dbl := fun _ => Dbl.val 0

/-- The `CircularBuffer<Dbl>` of capacity 5 after `push` of `nan`. -/
def bufNaN : CircularBuffer Dbl :=
  { m_buffer := [Dbl.nan, Dbl.val 0, Dbl.val 0, Dbl.val 0, Dbl.val 0], m_capacity := 5,
    m_head := 0, m_tail := 1, m_count := 1 }

/-- The `CircularBuffer<Dbl>` of capacity 5 after `push` of the number 9. -/
def bufD9 : CircularBuffer Dbl :=
  { m_buffer := [Dbl.val 9, Dbl.val 0, Dbl.val 0, Dbl.val 0, Dbl.val 0], m_capacity := 5,
    m_head := 0, m_tail := 1, m_count := 1 }

/-- A heap holding one block, that of a buffer with content `nan`. -/
def heapNaN : Mem.Heap Dbl := [[Dbl.nan, Dbl.val 0, Dbl.val 0, Dbl.val 0, Dbl.val 0]]

/-- A heap holding the block of a buffer with content 9 and that of a buffer with content
`nan`. -/
def heapD9_NaN : Mem.Heap Dbl :=
  [[Dbl.val 9, Dbl.val 0, Dbl.val 0, Dbl.val 0, Dbl.val 0],
   [Dbl.nan, Dbl.val 0, Dbl.val 0, Dbl.val 0, Dbl.val 0]]

/-- An object of capacity 5 holding one element and owning block 0. -/
def objOne0 : Mem.Object :=
  { m_buffer := 0, m_capacity := 5, m_head := 0, m_tail := 1, m_count := 1 }

/-- An object of capacity 5 holding one element and owning block 1. -/
def objOne1 : Mem.Object :=
  { m_buffer := 1, m_capacity := 5, m_head := 0, m_tail := 1, m_count := 1 }

/-! ## Basic facts about the primitives -/

theorem modSize_of_pos (a : Nat) {n : Nat} (h : 0 < n) : modSize a n = some (a % n) := by
  simp [modSize, Nat.pos_iff_ne_zero.mp h]

theorem length_newArray {α : Type} (junk : Nat → α) (n : Nat) : (newArray junk n).length = n := by
  simp [newArray]

/-- Two different offsets less than a full turn apart land on different slots. -/
theorem mod_ne_of_lt_of_lt_add {a b n : Nat} (hab : a < b) (hb : b < a + n) : a % n ≠ b % n := by
  intro h
  have h1 : (b - a) % n = 0 := Nat.sub_mod_eq_zero_of_mod_eq h.symm
  have h2 : b - a < n := by omega
  rw [Nat.mod_eq_of_lt h2] at h1
  omega

namespace CircularBuffer

variable {α : Type}

theorem enumLoop_eq_some_iff (b : CircularBuffer α) (hc : 0 < b.m_capacity) :
    ∀ (n i : Nat) (e : List α), enumLoop b n i = some e ↔
      e.length = n ∧ ∀ j, j < n → b.m_buffer[(b.m_head + (i + j)) % b.m_capacity]? = e[j]? := by
  intro n
  induction n with
  | zero =>
    intro i e
    simp [enumLoop]
  | succ n ih =>
    intro i e
    simp only [enumLoop, modSize_of_pos _ hc, readSlot]
    cases hv : b.m_buffer[(b.m_head + i) % b.m_capacity]? with
    | none =>
      refine ⟨fun h => Option.noConfusion h, ?_⟩
      intro ⟨hlen, hall⟩
      have h0 := hall 0 (Nat.succ_pos n)
      rw [Nat.add_zero, hv] at h0
      have : (0 : Nat) < e.length := by omega
      rw [List.getElem?_eq_getElem this] at h0
      exact Option.noConfusion h0
    | some v =>
      cases hr : enumLoop b n (i + 1) with
      | none =>
        refine ⟨fun h => Option.noConfusion h, ?_⟩
        intro ⟨hlen, hall⟩
        cases e with
        | nil => simp at hlen
        | cons x xs =>
          have : enumLoop b n (i + 1) = some xs := by
            rw [ih]
            refine ⟨by simpa using hlen, ?_⟩
            intro j hj
            have := hall (j + 1) (by omega)
            simpa [Nat.add_assoc, Nat.add_comm 1 j] using this
          rw [hr] at this
          exact Option.noConfusion this
      | some rest =>
        have hrest := (ih (i + 1) rest).mp hr
        constructor
        · intro h
          have he : e = v :: rest := by simpa using h.symm
          subst he
          refine ⟨by simp [hrest.1], ?_⟩
          intro j hj
          cases j with
          | zero => simpa using hv
          | succ j =>
            have := hrest.2 j (by omega)
            simpa [Nat.add_assoc, Nat.add_comm 1 j] using this
        · intro ⟨hlen, hall⟩
          cases e with
          | nil => simp at hlen
          | cons x xs =>
            have hx : x = v := by
              have h0 := hall 0 (Nat.succ_pos n)
              rw [Nat.add_zero, hv] at h0
              simpa using h0.symm
            have hxs : enumLoop b n (i + 1) = some xs := by
              rw [ih]
              refine ⟨by simpa using hlen, ?_⟩
              intro j hj
              have := hall (j + 1) (by omega)
              simpa [Nat.add_assoc, Nat.add_comm 1 j] using this
            rw [hr] at hxs
            have : rest = xs := by simpa using hxs
            simp [hx, this]

/-- Characterisation of the logical enumeration by its length and its slots. -/
theorem enumerate_eq_some_iff (b : CircularBuffer α) (hc : 0 < b.m_capacity) (e : List α) :
    enumerate b = some e ↔
      e.length = b.m_count ∧
        ∀ j, j < b.m_count → b.m_buffer[(b.m_head + j) % b.m_capacity]? = e[j]? := by
  unfold enumerate
  rw [enumLoop_eq_some_iff b hc]
  simp

end CircularBuffer

/-! ## The representation invariant -/

namespace CircularBuffer

variable {α : Type}

theorem inv_ctor_default (junk : Nat → α) : Inv (ctor_default junk) := by
  constructor <;> simp [ctor_default, def_capacity, length_newArray]

theorem inv_ctor_capacity (junk : Nat → α) (n : Nat) : Inv (ctor_capacity junk n).1 := by
  by_cases h : n = 0
  · constructor <;> simp [ctor_capacity, h, def_capacity, length_newArray]
  · have hn : 0 < n := Nat.pos_of_ne_zero h
    constructor <;> simp [ctor_capacity, h, length_newArray, hn]

theorem take_succ_set_append_drop (src dst : List α) (i : Nat) (his : i < src.length)
    (hid : i < dst.length) :
    List.take (i + 1) (dst.set i src[i]) ++ List.drop (i + 1) src =
      List.take i dst ++ List.drop i src := by
  apply List.ext_getElem?
  intro k
  rcases Nat.lt_trichotomy k i with h | h | h
  · rw [List.getElem?_append_left (by simp; omega), List.getElem?_append_left (by simp; omega)]
    rw [List.getElem?_take_of_lt (by omega), List.getElem?_take_of_lt h]
    exact List.getElem?_set_ne (by omega)
  · subst h
    rw [List.getElem?_append_left (by simp; omega), List.getElem?_append_right (by simp)]
    rw [List.getElem?_take_of_lt (by omega), List.getElem?_set_self hid]
    simp [Nat.min_eq_left (Nat.le_of_lt hid), List.getElem?_eq_getElem his]
  · rw [List.getElem?_append_right (by simp; omega), List.getElem?_append_right (by simp; omega)]
    simp only [List.length_take, List.length_set, List.getElem?_drop]
    congr 1
    omega

/-- The copy loop run over blocks of equal size replaces the slots from the counter on by
those of the source. -/
theorem copyLoop_eq (src : List α) :
    ∀ (n i : Nat) (dst : List α), dst.length = src.length → i + n = src.length →
      copyLoop src n i dst = some (dst.take i ++ src.drop i) := by
  intro n
  induction n with
  | zero =>
    intro i dst hd hi
    have h1 : List.drop i src = [] := List.drop_eq_nil_of_le (by omega)
    have h2 : List.take i dst = dst := List.take_of_length_le (by omega)
    simp [copyLoop, h1, h2]
  | succ n ih =>
    intro i dst hd hi
    have his : i < src.length := by omega
    have hid : i < dst.length := by omega
    simp only [copyLoop, readSlot, writeSlot, List.getElem?_eq_getElem his, hid, if_true]
    rw [ih (i + 1) (dst.set i src[i]) (by simpa using hd) (by omega)]
    congr 1
    exact take_succ_set_append_drop src dst i his hid

/-- On a well-formed source the copy constructor returns the source state itself: every
slot of the fresh block is overwritten. -/
theorem ctor_copy_eq (junk : Nat → α) {other : CircularBuffer α} (h : Inv other) :
    ctor_copy junk other = some other := by
  unfold ctor_copy
  rw [copyLoop_eq other.m_buffer other.m_capacity 0 _
    (by rw [length_newArray, h.size_eq]) (by rw [h.size_eq, Nat.zero_add])]
  simp

theorem operator_assign_eq (junk : Nat → α) (this : CircularBuffer α) {other : CircularBuffer α}
    (h : Inv other) : operator_assign junk this other false = some other := by
  unfold operator_assign
  rw [copyLoop_eq other.m_buffer other.m_capacity 0 _
    (by rw [length_newArray, h.size_eq]) (by rw [h.size_eq, Nat.zero_add])]
  simp

/-- Closed form of `push` on a well-formed buffer. -/
theorem push_eq {b : CircularBuffer α} (h : Inv b) (x : α) :
    push b x = some
      { m_buffer := b.m_buffer.set b.m_tail x
        m_capacity := b.m_capacity
        m_head := if b.m_count = b.m_capacity then (b.m_head + 1) % b.m_capacity else b.m_head
        m_tail := (b.m_tail + 1) % b.m_capacity
        m_count := if b.m_count = b.m_capacity then b.m_count else b.m_count + 1 } := by
  have ht : b.m_tail < b.m_buffer.length := by
    rw [h.size_eq, h.tail_eq]; exact Nat.mod_lt _ h.cap_pos
  unfold push
  simp only [writeSlot, ht, if_true, modSize_of_pos _ h.cap_pos, is_full, beq_iff_eq]
  by_cases hf : b.m_count = b.m_capacity <;> simp [hf]

/-- Closed form of `pop` on a well-formed non-empty buffer. -/
theorem pop_eq {b : CircularBuffer α} (h : Inv b) (hne : b.m_count ≠ 0) :
    pop b = some ({ b with m_head := (b.m_head + 1) % b.m_capacity, m_count := b.m_count - 1 }, "") := by
  unfold pop
  simp [is_empty, hne, modSize_of_pos _ h.cap_pos]

theorem pop_empty (b : CircularBuffer α) (he : b.m_count = 0) :
    pop b = some (b, "Buffer is empty. Cannot remove element.\n") := by
  unfold pop
  simp [is_empty, he]

theorem inv_push {b b1 : CircularBuffer α} (h : Inv b) {x : α} (hp : push b x = some b1) :
    Inv b1 := by
  rw [push_eq h x] at hp
  have hb : b1 = _ := (Option.some.inj hp).symm
  subst hb
  have hc := h.cap_pos
  have hh := h.head_lt
  have hn := h.count_le
  by_cases hf : b.m_count = b.m_capacity
  · constructor <;> simp only [hf, if_true, List.length_set]
    · exact hc
    · exact h.size_eq
    · exact Nat.mod_lt _ hc
    · exact Nat.le_refl _
    · rw [h.tail_eq, hf]; simp [Nat.add_mod, Nat.add_comm]
  · constructor <;> simp only [hf, if_false, List.length_set]
    · exact hc
    · exact h.size_eq
    · exact hh
    · omega
    · rw [h.tail_eq, Nat.mod_add_mod, Nat.add_assoc]

theorem inv_pop {b b1 : CircularBuffer α} {out : String} (h : Inv b)
    (hp : pop b = some (b1, out)) : Inv b1 := by
  by_cases he : b.m_count = 0
  · rw [pop_empty b he] at hp
    have hb : b1 = b := by
      have := Option.some.inj hp
      exact (congrArg Prod.fst this).symm
    rw [hb]; exact h
  · rw [pop_eq h he] at hp
    have hb : b1 = _ := (congrArg Prod.fst (Option.some.inj hp)).symm
    subst hb
    have hc := h.cap_pos
    have hn := h.count_le
    constructor <;> simp only
    · exact hc
    · exact h.size_eq
    · exact Nat.mod_lt _ hc
    · omega
    · rw [h.tail_eq]
      have : b.m_head + b.m_count = b.m_head + 1 + (b.m_count - 1) := by omega
      rw [this]; simp [Nat.add_mod]

/-- Every reachable state satisfies the representation invariant. -/
theorem Reachable.inv {b : CircularBuffer α} (h : Reachable b) : Inv b := by
  induction h with
  | default junk => exact inv_ctor_default junk
  | capacity junk n => exact inv_ctor_capacity junk n
  | copy junk _ hc ih =>
    rw [ctor_copy_eq junk ih] at hc
    exact (Option.some.inj hc) ▸ ih
  | push x _ hp ih => exact inv_push ih hp
  | pop _ hp ih => exact inv_pop ih hp
  | assign junk sameObject _ _ hsame ha ih1 ih2 =>
    cases sameObject with
    | true =>
      simp [operator_assign] at ha
      exact ha ▸ ih1
    | false =>
      rw [operator_assign_eq junk _ ih2] at ha
      exact (Option.some.inj ha) ▸ ih2

end CircularBuffer

/-! ## Enumeration after `push` and `pop` -/

namespace CircularBuffer

variable {α : Type}

/-- On a well-formed buffer the enumeration loop reads only slots of the block. -/
theorem enumLoop_some {b : CircularBuffer α} (h : Inv b) :
    ∀ n i : Nat, ∃ e, enumLoop b n i = some e := by
  intro n
  induction n with
  | zero => intro i; exact ⟨[], rfl⟩
  | succ n ih =>
    intro i
    have hk : (b.m_head + i) % b.m_capacity < b.m_buffer.length := by
      rw [h.size_eq]; exact Nat.mod_lt _ h.cap_pos
    obtain ⟨r, hr⟩ := ih (i + 1)
    simp only [enumLoop, modSize_of_pos _ h.cap_pos, readSlot, List.getElem?_eq_getElem hk, hr]
    exact ⟨_, rfl⟩

theorem enumerate_some {b : CircularBuffer α} (h : Inv b) : ∃ e, enumerate b = some e :=
  enumLoop_some h b.m_count 0

theorem enumerate_length {b : CircularBuffer α} (h : Inv b) {e : List α}
    (he : enumerate b = some e) : e.length = b.m_count :=
  ((enumerate_eq_some_iff b h.cap_pos e).mp he).1

/-- Enumeration after `push`: the item is appended, and on a full buffer the oldest
element is dropped. -/
theorem enumerate_push {b b1 : CircularBuffer α} (h : Inv b) {e : List α}
    (he : enumerate b = some e) {x : α} (hp : push b x = some b1) :
    enumerate b1 = some (if b.m_count = b.m_capacity then e.tail ++ [x] else e ++ [x]) := by
  have hinv1 := inv_push h hp
  rw [push_eq h x] at hp
  have hb : b1 = _ := (Option.some.inj hp).symm
  obtain ⟨hlen, hslots⟩ := (enumerate_eq_some_iff b h.cap_pos e).mp he
  have hc := h.cap_pos
  have hh := h.head_lt
  have hn := h.count_le
  have ht : b.m_tail < b.m_buffer.length := by
    rw [h.size_eq, h.tail_eq]; exact Nat.mod_lt _ hc
  rw [enumerate_eq_some_iff b1 hinv1.cap_pos]
  subst hb
  by_cases hf : b.m_count = b.m_capacity
  · simp only [hf, if_true]
    have hel : 0 < e.length := by omega
    refine ⟨by simp [List.length_tail]; omega, ?_⟩
    intro j hj
    rw [Nat.mod_add_mod]
    by_cases hjl : j + 1 < b.m_capacity
    · have hne : b.m_tail ≠ (b.m_head + 1 + j) % b.m_capacity := by
        rw [h.tail_eq, hf]
        exact (mod_ne_of_lt_of_lt_add (by omega) (by omega)).symm
      rw [List.getElem?_set_ne hne, List.getElem?_append_left (by simp [List.length_tail]; omega),
        List.getElem?_tail, Nat.add_assoc, Nat.add_comm 1 j]
      exact hslots (j + 1) (by omega)
    · have hj1 : j = b.m_capacity - 1 := by omega
      have hidx : (b.m_head + 1 + j) % b.m_capacity = b.m_tail := by
        rw [h.tail_eq, hf]; congr 1; omega
      rw [hidx, List.getElem?_set_self ht,
        List.getElem?_append_right (by simp [List.length_tail]; omega)]
      have : j - e.tail.length = 0 := by simp [List.length_tail]; omega
      rw [this]; rfl
  · simp only [hf, if_false]
    refine ⟨by simp [hlen], ?_⟩
    intro j hj
    by_cases hjl : j < b.m_count
    · have hne : b.m_tail ≠ (b.m_head + j) % b.m_capacity := by
        rw [h.tail_eq]
        exact (mod_ne_of_lt_of_lt_add (by omega) (by omega)).symm
      rw [List.getElem?_set_ne hne, List.getElem?_append_left (by omega)]
      exact hslots j hjl
    · have hj1 : j = b.m_count := by omega
      subst hj1
      rw [← h.tail_eq, List.getElem?_set_self ht, List.getElem?_append_right (by omega)]
      simp [hlen]

/-- Enumeration after `pop` on a non-empty buffer: the oldest element is dropped. -/
theorem enumerate_pop {b b1 : CircularBuffer α} {out : String} (h : Inv b) (hne : b.m_count ≠ 0)
    {e : List α} (he : enumerate b = some e) (hp : pop b = some (b1, out)) :
    enumerate b1 = some e.tail := by
  have hinv1 := inv_pop h hp
  rw [pop_eq h hne] at hp
  have hb : b1 = _ := (congrArg Prod.fst (Option.some.inj hp)).symm
  obtain ⟨hlen, hslots⟩ := (enumerate_eq_some_iff b h.cap_pos e).mp he
  rw [enumerate_eq_some_iff b1 hinv1.cap_pos]
  subst hb
  refine ⟨by simp [List.length_tail, hlen], ?_⟩
  intro j hj
  simp only at hj ⊢
  rw [Nat.mod_add_mod, List.getElem?_tail, Nat.add_assoc, Nat.add_comm 1 j]
  exact hslots (j + 1) (by omega)

end CircularBuffer

/-! ## Sequences of pushes and the comparison loop -/

/-- Keeping the last `k` elements twice, with an append in between, is keeping them once. -/
theorem drop_last_append {α : Type} (k : Nat) (l m : List α) :
    (l.drop (l.length - k) ++ m).drop ((l.drop (l.length - k) ++ m).length - k) =
      (l ++ m).drop ((l ++ m).length - k) := by
  by_cases h : l.length ≤ k
  · have : l.length - k = 0 := by omega
    simp [this]
  · have hd : (l.drop (l.length - k)).length = k := by simp; omega
    have h1 : (l.drop (l.length - k) ++ m).length - k = m.length := by
      rw [List.length_append, hd]; omega
    have h2 : (l ++ m).length - k = (l.length - k) + m.length := by
      rw [List.length_append]; omega
    have h3 : (l ++ m).drop (l.length - k + m.length) =
        (l.drop (l.length - k) ++ m).drop m.length := by
      rw [← List.drop_drop, List.drop_append_of_le_length (Nat.sub_le _ _)]
    rw [h1, h2, h3]

namespace CircularBuffer

variable {α : Type}

theorem push_capacity {b b1 : CircularBuffer α} (h : Inv b) {x : α} (hp : push b x = some b1) :
    b1.m_capacity = b.m_capacity := by
  rw [push_eq h x] at hp
  rw [← Option.some.inj hp]

theorem reachable_pushAll (xs : List α) :
    ∀ {b b1 : CircularBuffer α}, Reachable b → pushAll xs b = some b1 → Reachable b1 := by
  induction xs with
  | nil =>
    intro b b1 hb h
    simp only [pushAll] at h
    exact (Option.some.inj h) ▸ hb
  | cons x xs ih =>
    intro b b1 hb h
    simp only [pushAll] at h
    cases hp : push b x with
    | none => rw [hp] at h; exact Option.noConfusion h
    | some b2 =>
      rw [hp] at h
      exact ih (Reachable.push x hb hp) h

/-- Pushing a list onto a well-formed buffer keeps the last `m_capacity` elements of the
previous content followed by the list. -/
theorem pushAll_spec (xs : List α) :
    ∀ {b : CircularBuffer α} {e : List α}, Inv b → enumerate b = some e →
      ∃ b1, pushAll xs b = some b1 ∧ Inv b1 ∧ b1.m_capacity = b.m_capacity ∧
        enumerate b1 = some ((e ++ xs).drop ((e ++ xs).length - b.m_capacity)) := by
  induction xs with
  | nil =>
    intro b e h he
    refine ⟨b, rfl, h, rfl, ?_⟩
    have hl := enumerate_length h he
    have hn := h.count_le
    have : (e ++ []).length - b.m_capacity = 0 := by simp; omega
    rw [this]; simpa using he
  | cons x xs ih =>
    intro b e h he
    have hl := enumerate_length h he
    have hn := h.count_le
    have hc := h.cap_pos
    obtain ⟨b2, hp⟩ : ∃ b2, push b x = some b2 := ⟨_, push_eq h x⟩
    have h2 := inv_push h hp
    have hcap := push_capacity h hp
    have he2 := enumerate_push h he hp
    have hstep : (if b.m_count = b.m_capacity then e.tail ++ [x] else e ++ [x]) =
        (e ++ [x]).drop ((e ++ [x]).length - b.m_capacity) := by
      by_cases hf : b.m_count = b.m_capacity
      · have : (e ++ [x]).length - b.m_capacity = 1 := by simp; omega
        rw [this, if_pos hf]
        cases e with
        | nil => simp at hl; omega
        | cons y ys => simp
      · have : (e ++ [x]).length - b.m_capacity = 0 := by simp; omega
        rw [this, if_neg hf]; rfl
    rw [hstep] at he2
    obtain ⟨b1, hb1, hinv1, hcap1, hen1⟩ := ih h2 he2
    refine ⟨b1, ?_, hinv1, by rw [hcap1, hcap], ?_⟩
    · simp only [pushAll, hp]; exact hb1
    · rw [hen1, hcap, drop_last_append]
      simp

theorem enumLoop_succ_inv {b : CircularBuffer α} {n i : Nat} {e : List α}
    (h : enumLoop b (n + 1) i = some e) :
    ∃ k v r, modSize (b.m_head + i) b.m_capacity = some k ∧ readSlot b.m_buffer k = some v ∧
      enumLoop b n (i + 1) = some r ∧ e = v :: r := by
  simp only [enumLoop] at h
  cases hk : modSize (b.m_head + i) b.m_capacity with
  | none => rw [hk] at h; exact Option.noConfusion h
  | some k =>
    rw [hk] at h
    simp only at h
    cases hv : readSlot b.m_buffer k with
    | none => rw [hv] at h; exact Option.noConfusion h
    | some v =>
      rw [hv] at h
      simp only at h
      cases hr : enumLoop b n (i + 1) with
      | none => rw [hr] at h; exact Option.noConfusion h
      | some r =>
        rw [hr] at h
        exact ⟨k, v, r, rfl, hv, rfl, (Option.some.inj h).symm⟩

/-- The comparison loop answers whether the two sequences of visited slots are equal. -/
theorem eqLoop_eq [BEq α] (a b : CircularBuffer α) :
    ∀ (n i : Nat) (ea eb : List α), enumLoop a n i = some ea → enumLoop b n i = some eb →
      eqLoop a b n i = some (ea == eb) := by
  intro n
  induction n with
  | zero =>
    intro i ea eb ha hb
    simp only [enumLoop] at ha hb
    rw [← Option.some.inj ha, ← Option.some.inj hb]
    rfl
  | succ n ih =>
    intro i ea eb ha hb
    obtain ⟨ka, x, ra, hka, hx, hra, rfl⟩ := enumLoop_succ_inv ha
    obtain ⟨kb, y, rb, hkb, hy, hrb, rfl⟩ := enumLoop_succ_inv hb
    simp only [eqLoop, hka, hx, hkb, hy, ih (i + 1) ra rb hra hrb]
    cases hxy : x == y <;> simp [bne, hxy, List.cons_beq_cons]

/-- Closed form of `operator==` on well-formed buffers. -/
theorem operator_eq_eq [BEq α] {a b : CircularBuffer α} {ea eb : List α}
    (hea : enumerate a = some ea) (heb : enumerate b = some eb) :
    operator_eq a b = some (a.m_capacity == b.m_capacity && a.m_count == b.m_count && ea == eb) := by
  unfold operator_eq
  by_cases hc : a.m_capacity = b.m_capacity
  · by_cases hn : a.m_count = b.m_count
    · have heb1 : enumLoop b a.m_count 0 = some eb := by rw [hn]; exact heb
      simp [hc, hn]
      rw [← hn, eqLoop_eq a b a.m_count 0 ea eb hea heb1]
    · simp [hc, hn]
  · simp [hc]

/-- A well-formed buffer compares equal to itself. -/
theorem operator_eq_self [BEq α] [LawfulBEq α] {b : CircularBuffer α} (hinv : Inv b) :
    operator_eq b b = some true := by
  obtain ⟨e, he⟩ := enumerate_some hinv
  rw [operator_eq_eq he he]
  simp

end CircularBuffer

/-! ## Objects in memory: loads, stores and the frame of a mutating call -/

namespace Mem

variable {α : Type}

theorem load_eq_some {h : Heap α} {o : Object} {b : CircularBuffer α} (hl : load h o = some b) :
    o.m_buffer < h.length ∧ h[o.m_buffer]? = some b.m_buffer ∧ b.m_capacity = o.m_capacity ∧
      b.m_head = o.m_head ∧ b.m_tail = o.m_tail ∧ b.m_count = o.m_count := by
  unfold load at hl
  cases hb : h[o.m_buffer]? with
  | none => rw [hb] at hl; exact Option.noConfusion hl
  | some blk =>
    rw [hb] at hl
    have := Option.some.inj hl
    subst this
    have hlt : o.m_buffer < h.length := by
      by_contra hge
      rw [List.getElem?_eq_none (by omega)] at hb
      exact Option.noConfusion hb
    exact ⟨hlt, rfl, rfl, rfl, rfl, rfl⟩

/-- The object returned by an allocation loads the state it was built from. -/
theorem load_alloc_new (h : Heap α) (b : CircularBuffer α) :
    load (alloc h b).1 (alloc h b).2 = some b := by
  simp [load, alloc]

/-- An allocation leaves every object that was loadable before as it was. -/
theorem load_alloc_old {h : Heap α} {o : Object} {a : CircularBuffer α} (b : CircularBuffer α)
    (hl : load h o = some a) : load (alloc h b).1 o = some a := by
  have hlt := (load_eq_some hl).1
  have : (h ++ [b.m_buffer])[o.m_buffer]? = h[o.m_buffer]? := List.getElem?_append_left hlt
  unfold load at hl ⊢
  simp only [alloc, this]
  exact hl

/-- The address handed out by an allocation differs from that of every loadable object. -/
theorem alloc_fresh {h : Heap α} {o : Object} {a : CircularBuffer α} (b : CircularBuffer α)
    (hl : load h o = some a) : (alloc h b).2.m_buffer ≠ o.m_buffer := by
  have hlt := (load_eq_some hl).1
  simp only [alloc]
  omega

theorem load_store_same {h : Heap α} {p : Nat} (b : CircularBuffer α) (hp : p < h.length) :
    load (store h p b).1 (store h p b).2 = some b := by
  simp [load, store, List.getElem?_set_self hp]

theorem load_store_other (h : Heap α) {p : Nat} (b : CircularBuffer α) {o : Object}
    (hne : o.m_buffer ≠ p) : load (store h p b).1 o = load h o := by
  simp [load, store, List.getElem?_set_ne (Ne.symm hne)]

end Mem

namespace CircularBuffer

variable {α : Type}

theorem applyOp_some {b : CircularBuffer α} (h : Inv b) (op : Op α) :
    ∃ b1, applyOp b op = some b1 ∧ Inv b1 := by
  cases op with
  | push x =>
    exact ⟨_, push_eq h x, inv_push h (push_eq h x)⟩
  | pop =>
    by_cases he : b.m_count = 0
    · exact ⟨b, by simp [applyOp, pop_empty b he], h⟩
    · exact ⟨_, by simp only [applyOp, pop_eq h he]; rfl, inv_pop h (pop_eq h he)⟩

end CircularBuffer

namespace Mem

variable {α : Type}

/-- A mutating call on a loadable well-formed object succeeds and stores the new state
back into the block of that object. -/
theorem applyOp_eq_store {h : Heap α} {o : Object} {b : CircularBuffer α}
    (hl : load h o = some b) (hinv : CircularBuffer.Inv b) (op : Op α) :
    ∃ b1, CircularBuffer.Inv b1 ∧ applyOp h o op = some (store h o.m_buffer b1) := by
  cases op with
  | push x =>
    refine ⟨_, CircularBuffer.inv_push hinv (CircularBuffer.push_eq hinv x), ?_⟩
    simp only [applyOp, push, hl, CircularBuffer.push_eq hinv x]
  | pop =>
    by_cases he : b.m_count = 0
    · refine ⟨b, hinv, ?_⟩
      simp only [applyOp, pop, hl, CircularBuffer.pop_empty b he]
    · refine ⟨_, CircularBuffer.inv_pop hinv (CircularBuffer.pop_eq hinv he), ?_⟩
      simp only [applyOp, pop, hl, CircularBuffer.pop_eq hinv he]

/-- Frame of a sequence of mutating calls on one object: the calls succeed, the object
keeps its block, and every object whose block is at another address loads what it loaded
before. -/
theorem applyOps_frame (ops : List (Op α)) :
    ∀ {h : Heap α} {o : Object} {b : CircularBuffer α}, load h o = some b →
      CircularBuffer.Inv b →
      ∃ h1 o1 b1, applyOps ops h o = some (h1, o1) ∧ o1.m_buffer = o.m_buffer ∧
        load h1 o1 = some b1 ∧ CircularBuffer.Inv b1 ∧
        ∀ o2 : Object, o2.m_buffer ≠ o.m_buffer → load h1 o2 = load h o2 := by
  induction ops with
  | nil =>
    intro h o b hl hinv
    exact ⟨h, o, b, rfl, rfl, hl, hinv, fun _ _ => rfl⟩
  | cons op ops ih =>
    intro h o b hl hinv
    obtain ⟨b1, hinv1, hop⟩ := applyOp_eq_store hl hinv op
    have hlt := (load_eq_some hl).1
    have hl1 : load (store h o.m_buffer b1).1 (store h o.m_buffer b1).2 = some b1 :=
      load_store_same b1 hlt
    obtain ⟨h2, o2, b2, hops, hptr, hl2, hinv2, hframe⟩ := ih hl1 hinv1
    refine ⟨h2, o2, b2, ?_, ?_, hl2, hinv2, ?_⟩
    · simp only [applyOps, hop]; exact hops
    · rw [hptr]; rfl
    · intro o3 hne
      rw [hframe o3 (by simpa [store] using hne)]
      exact load_store_other h b1 hne

end Mem

/-! ## Reachability of the concrete buffers -/

theorem reachable_fresh5 : CircularBuffer.Reachable fresh5 :=
  CircularBuffer.Reachable.capacity junk0 5

theorem reachable_bufA : CircularBuffer.Reachable bufA :=
  CircularBuffer.reachable_pushAll [1, 2, 3, 4, 5, 6] reachable_fresh5 (by decide)

theorem reachable_bufB : CircularBuffer.Reachable bufB :=
  CircularBuffer.reachable_pushAll [2, 3, 4, 5, 6] reachable_fresh5 (by decide)

theorem reachable_buf123 : CircularBuffer.Reachable buf123 :=
  CircularBuffer.reachable_pushAll [1, 2, 3] reachable_fresh5 (by decide)

theorem reachable_buf9 : CircularBuffer.Reachable buf9 :=
  CircularBuffer.reachable_pushAll [9] reachable_fresh5 (by decide)

/-! ## The claims -/

namespace CircularBuffer

variable {α : Type}

/-- C1 (overwrite law).  For every capacity `c ≥ 1` and every list `xs`, pushing the
elements of `xs` in order onto a freshly constructed buffer of capacity `c` succeeds and
yields a buffer of capacity `c` whose count is `min |xs| c` and whose logical enumeration
is the last `min |xs| c` elements of `xs` in their order; when `|xs| ≥ c` the count is `c`
and the enumeration is the last `c` elements. -/
theorem overwrite_law (junk : Nat → α) (c : Nat) (hc : 1 ≤ c) (xs : List α) :
    ∃ b, pushAll xs (ctor_capacity junk c).1 = some b ∧
      b.m_capacity = c ∧
      b.m_count = min xs.length c ∧
      enumerate b = some (xs.drop (xs.length - min xs.length c)) ∧
      (c ≤ xs.length → b.m_count = c ∧ enumerate b = some (xs.drop (xs.length - c))) := by
  have hc0 : c ≠ 0 := by omega
  have hcap : (ctor_capacity junk c).1.m_capacity = c := by simp [ctor_capacity, hc0]
  have hen : enumerate (ctor_capacity junk c).1 = some [] := by
    simp [ctor_capacity, hc0, enumerate, enumLoop]
  obtain ⟨b, hb, hinv, hbcap, hbe⟩ := pushAll_spec xs (inv_ctor_capacity junk c) hen
  rw [hcap] at hbcap hbe
  rw [List.nil_append] at hbe
  have hlen := enumerate_length hinv hbe
  have hcount : b.m_count = min xs.length c := by
    rw [← hlen, List.length_drop]; omega
  have hidx : xs.length - min xs.length c = xs.length - c := by omega
  refine ⟨b, hb, hbcap, hcount, by rw [hidx]; exact hbe, ?_⟩
  intro hle
  exact ⟨by rw [hcount]; omega, hbe⟩

/-- Witness of C1: capacity 5, push 1, 2, 3, 4, 5, 6 gives count 5 and the enumeration
2, 3, 4, 5, 6. -/
theorem overwrite_law_witness :
    (1 : Nat) ≤ 5 ∧
      ∃ b, pushAll [1, 2, 3, 4, 5, 6] (ctor_capacity junk0 5).1 = some b ∧
        b.m_count = 5 ∧ enumerate b = some [2, 3, 4, 5, 6] :=
  ⟨by decide,
    match overwrite_law junk0 5 (by decide) [1, 2, 3, 4, 5, 6] with
    | ⟨b, h1, _, _, _, h5⟩ => ⟨b, h1, (h5 (by decide)).1, (h5 (by decide)).2⟩⟩

/-- C2 (single-step push).  On every reachable buffer `push` succeeds and leaves the
capacity unchanged; if the buffer was not full the enumeration gains the item at its end,
the count grows by one and the head stays; if it was full the oldest element is dropped,
the item is appended, the count remains the capacity and the head advances by one modulo
the capacity. -/
theorem push_step {b : CircularBuffer α} (hb : Reachable b) (x : α) :
    ∃ e b1, enumerate b = some e ∧ push b x = some b1 ∧
      b1.m_capacity = b.m_capacity ∧
      (is_full b = false →
        enumerate b1 = some (e ++ [x]) ∧ b1.m_count = b.m_count + 1 ∧ b1.m_head = b.m_head) ∧
      (is_full b = true →
        enumerate b1 = some (e.tail ++ [x]) ∧ b1.m_count = b.m_capacity ∧
          b1.m_head = (b.m_head + 1) % b.m_capacity) := by
  have hinv := hb.inv
  obtain ⟨e, he⟩ := enumerate_some hinv
  have hp := push_eq hinv x
  have hen := enumerate_push hinv he hp
  refine ⟨e, _, he, hp, rfl, ?_, ?_⟩
  · intro hf
    have hne : b.m_count ≠ b.m_capacity := by simpa [is_full] using hf
    simp only [if_neg hne] at hen ⊢
    exact ⟨hen, trivial, trivial⟩
  · intro hf
    have heq : b.m_count = b.m_capacity := by simpa [is_full] using hf
    simp only [if_pos heq] at hen ⊢
    exact ⟨hen, heq, trivial⟩

/-- Witness of C2 on the full buffer holding 2, 3, 4, 5, 6 with head 1. -/
theorem push_step_witness :
    Reachable bufA ∧
      ∃ e b1, enumerate bufA = some e ∧ push bufA 7 = some b1 ∧
        b1.m_capacity = bufA.m_capacity ∧
        (is_full bufA = false →
          enumerate b1 = some (e ++ [7]) ∧ b1.m_count = bufA.m_count + 1 ∧
            b1.m_head = bufA.m_head) ∧
        (is_full bufA = true →
          enumerate b1 = some (e.tail ++ [7]) ∧ b1.m_count = bufA.m_capacity ∧
            b1.m_head = (bufA.m_head + 1) % bufA.m_capacity) :=
  ⟨reachable_bufA, push_step reachable_bufA 7⟩

/-- C3 (pop removes the oldest element).  On every reachable non-empty buffer `pop`
succeeds without printing; the enumeration before the call is `y :: rest` and after the
call it is `rest`, the count has decreased by exactly one, the head has advanced by one
modulo the capacity and the capacity is unchanged. -/
theorem pop_removes_oldest {b : CircularBuffer α} (hb : Reachable b)
    (hne : is_empty b = false) :
    ∃ y rest b1, enumerate b = some (y :: rest) ∧ pop b = some (b1, "") ∧
      enumerate b1 = some rest ∧ b1.m_count + 1 = b.m_count ∧
      b1.m_head = (b.m_head + 1) % b.m_capacity ∧ b1.m_capacity = b.m_capacity := by
  have hinv := hb.inv
  have hcnt : b.m_count ≠ 0 := by simpa [is_empty] using hne
  obtain ⟨e, he⟩ := enumerate_some hinv
  have hlen := enumerate_length hinv he
  have hp := pop_eq hinv hcnt
  have hen := enumerate_pop hinv hcnt he hp
  cases e with
  | nil => exact absurd hlen.symm hcnt
  | cons y rest =>
    exact ⟨y, rest, _, he, hp, hen, by simp only; omega, rfl, rfl⟩

/-- Witness of C3 on the buffer holding 1, 2, 3. -/
theorem pop_removes_oldest_witness :
    Reachable buf123 ∧ is_empty buf123 = false ∧
      ∃ y rest b1, enumerate buf123 = some (y :: rest) ∧ pop buf123 = some (b1, "") ∧
        enumerate b1 = some rest ∧ b1.m_count + 1 = buf123.m_count ∧
        b1.m_head = (buf123.m_head + 1) % buf123.m_capacity ∧
        b1.m_capacity = buf123.m_capacity :=
  ⟨reachable_buf123, rfl, pop_removes_oldest reachable_buf123 rfl⟩

/-- C4 (pop on an empty buffer).  For every buffer whose count is 0, `pop` succeeds,
returns the very same state (capacity, head, tail, count and every slot) and prints only
the diagnostic line. -/
theorem pop_empty_noop (b : CircularBuffer α) (h : b.m_count = 0) :
    pop b = some (b, "Buffer is empty. Cannot remove element.\n") :=
  pop_empty b h

/-- Witness of C4 on a fresh buffer of capacity 5. -/
theorem pop_empty_noop_witness :
    fresh5.m_count = 0 ∧ pop fresh5 = some (fresh5, "Buffer is empty. Cannot remove element.\n") :=
  ⟨rfl, pop_empty_noop fresh5 rfl⟩

/-- C6 (well-formedness).  Every state reachable from a constructor by `push`, `pop`,
copy construction and assignment has a positive capacity, a count between 0 and the
capacity, and a head between 0 and the capacity (exclusive). -/
theorem reachable_wellformed {b : CircularBuffer α} (hb : Reachable b) :
    0 < b.m_capacity ∧ 0 ≤ b.m_count ∧ b.m_count ≤ b.m_capacity ∧
      0 ≤ b.m_head ∧ b.m_head < b.m_capacity :=
  ⟨hb.inv.cap_pos, Nat.zero_le _, hb.inv.count_le, Nat.zero_le _, hb.inv.head_lt⟩

/-- Witness of C6 on the wrapped buffer `bufA`. -/
theorem reachable_wellformed_witness :
    Reachable bufA ∧ 0 < bufA.m_capacity ∧ 0 ≤ bufA.m_count ∧ bufA.m_count ≤ bufA.m_capacity ∧
      0 ≤ bufA.m_head ∧ bufA.m_head < bufA.m_capacity :=
  ⟨reachable_bufA, reachable_wellformed reachable_bufA⟩

/-- C7 (construction).  `CircularBuffer(n)` has capacity `n` when `n > 0` and capacity 5
when `n = 0`, the default constructor has capacity 5; both allocate exactly capacity
slots and start with head, tail and count 0, so the buffer is empty, is not full and
enumerates nothing. -/
theorem construction (junk : Nat → α) (n : Nat) :
    ((ctor_capacity junk n).1.m_capacity = if n = 0 then 5 else n) ∧
      (ctor_default junk).m_capacity = 5 ∧
      ((ctor_capacity junk n).1.m_buffer.length = (ctor_capacity junk n).1.m_capacity ∧
        (ctor_capacity junk n).1.m_head = 0 ∧ (ctor_capacity junk n).1.m_tail = 0 ∧
        (ctor_capacity junk n).1.m_count = 0 ∧ is_empty (ctor_capacity junk n).1 = true ∧
        is_full (ctor_capacity junk n).1 = false ∧
        enumerate (ctor_capacity junk n).1 = some []) ∧
      ((ctor_default junk).m_buffer.length = (ctor_default junk).m_capacity ∧
        (ctor_default junk).m_head = 0 ∧ (ctor_default junk).m_tail = 0 ∧
        (ctor_default junk).m_count = 0 ∧ is_empty (ctor_default junk) = true ∧
        is_full (ctor_default junk) = false ∧ enumerate (ctor_default junk) = some []) := by
  refine ⟨?_, rfl, ?_, ?_⟩
  · by_cases h : n = 0 <;> simp [ctor_capacity, h, def_capacity]
  · by_cases h : n = 0
    · simp [ctor_capacity, h, def_capacity, length_newArray, is_empty, is_full, enumerate,
        enumLoop]
    · have h0 : ¬ (0 = n) := fun h1 => h h1.symm
      simp [ctor_capacity, h, h0, length_newArray, is_empty, is_full, enumerate, enumLoop]
  · simp [ctor_default, def_capacity, length_newArray, is_empty, is_full, enumerate, enumLoop]

end CircularBuffer

/-! ## Comparing a buffer with a copy of itself -/

theorem reachable_bufNaN : CircularBuffer.Reachable bufNaN :=
  CircularBuffer.Reachable.push Dbl.nan (CircularBuffer.Reachable.capacity junkD 5) rfl

theorem reachable_bufD9 : CircularBuffer.Reachable bufD9 :=
  CircularBuffer.Reachable.push (Dbl.val 9) (CircularBuffer.Reachable.capacity junkD 5) rfl

/-- A list compares equal to itself when each of its elements does. -/
theorem list_beq_self {α : Type} [BEq α] (e : List α)
    (h : ∀ x, x ∈ e → (x == x) = true) : (e == e) = true := by
  induction e with
  | nil => rfl
  | cons y ys ih =>
    rw [List.cons_beq_cons, h y (List.mem_cons_self y ys),
      ih (fun x hx => h x (List.mem_cons_of_mem y hx))]
    rfl

/-- For any element comparison, `b == b` is the element-wise comparison of the
enumeration of `b` with itself. -/
theorem CircularBuffer.operator_eq_self_eq {α : Type} [BEq α] {b : CircularBuffer α}
    {e : List α} (he : CircularBuffer.enumerate b = some e) :
    CircularBuffer.operator_eq b b = some (e == e) := by
  rw [CircularBuffer.operator_eq_eq he he]
  simp

namespace Mem

variable {α : Type}

theorem enumerate_of_load {h : Heap α} {o : Object} {b : CircularBuffer α}
    (hl : load h o = some b) : enumerate h o = CircularBuffer.enumerate b := by
  simp only [enumerate, hl]

theorem operator_eq_of_load [BEq α] {h : Heap α} {o1 o2 : Object} {b1 b2 : CircularBuffer α}
    (h1 : load h o1 = some b1) (h2 : load h o2 = some b2) :
    operator_eq h o1 o2 = CircularBuffer.operator_eq b1 b2 := by
  simp only [operator_eq, h1, h2]

/-- C8 as stated fails for an element type whose comparison is not reflexive.  The
reachable `CircularBuffer<Dbl>` that holds `nan` is copied; the copy loads the same state
and enumerates the same element, and yet `B == A` is false, because the loop of
`operator==` finds `nan != nan`. -/
theorem copy_independence_counterexample :
    load heapNaN objOne0 = some bufNaN ∧ CircularBuffer.Reachable bufNaN ∧
      ∃ h1 B, ctor_copy junkD heapNaN objOne0 = some (h1, B) ∧
        load h1 objOne0 = some bufNaN ∧ load h1 B = some bufNaN ∧
        enumerate h1 objOne0 = some [Dbl.nan] ∧ enumerate h1 B = some [Dbl.nan] ∧
        operator_eq h1 B objOne0 = some false :=
  ⟨rfl, reachable_bufNaN, _, _, rfl, rfl, rfl, rfl, rfl, rfl⟩

/-- C8 (copy independence, amended).  Let `A` be an object in memory whose state `a` is
reachable, over any element type.  The copy constructor succeeds and returns an object
`B` on a block of its own; `B` has the capacity and the count of `A`, loads the same
state and enumerates the same elements `e`; `A` itself is unchanged.  `B == A` is defined
and is the element-wise comparison of `e` with itself: it is true whenever every live
element compares equal to itself (always so for a lawful equality such as that of `int`).  Whatever sequence of `push` and `pop` is then applied to one of the two
objects, the calls succeed and the other object still loads the state, and enumerates the
elements, it had when the copy was made. -/
theorem copy_independence [BEq α] (junk : Nat → α) (h : Heap α) (A : Object)
    (a : CircularBuffer α) (hload : load h A = some a) (ha : CircularBuffer.Reachable a) :
    ∃ h1 B e, ctor_copy junk h A = some (h1, B) ∧
      B.m_buffer ≠ A.m_buffer ∧
      B.m_capacity = A.m_capacity ∧ B.m_count = A.m_count ∧
      load h1 A = some a ∧ load h1 B = some a ∧
      enumerate h A = some e ∧ enumerate h1 A = some e ∧ enumerate h1 B = some e ∧
      operator_eq h1 B A = some (e == e) ∧
      ((∀ x, x ∈ e → (x == x) = true) → operator_eq h1 B A = some true) ∧
      (∀ ops : List (Op α), ∃ h2 A2, applyOps ops h1 A = some (h2, A2) ∧
        load h2 B = some a ∧ enumerate h2 B = some e) ∧
      (∀ ops : List (Op α), ∃ h2 B2, applyOps ops h1 B = some (h2, B2) ∧
        load h2 A = some a ∧ enumerate h2 A = some e) := by
  have hinv := ha.inv
  obtain ⟨e, he⟩ := CircularBuffer.enumerate_some hinv
  have hcopy : ctor_copy junk h A = some (alloc h a) := by
    simp only [ctor_copy, hload, CircularBuffer.ctor_copy_eq junk hinv]
  have hA1 : load (alloc h a).1 A = some a := load_alloc_old a hload
  have hB1 : load (alloc h a).1 (alloc h a).2 = some a := load_alloc_new h a
  have hfresh : (alloc h a).2.m_buffer ≠ A.m_buffer := alloc_fresh a hload
  have heq : operator_eq (alloc h a).1 (alloc h a).2 A = some (e == e) := by
    rw [operator_eq_of_load hB1 hA1]; exact CircularBuffer.operator_eq_self_eq he
  obtain ⟨_, _, hcapA, _, _, hcountA⟩ := load_eq_some hload
  refine ⟨(alloc h a).1, (alloc h a).2, e, hcopy, hfresh, hcapA, hcountA, hA1, hB1,
    by rw [enumerate_of_load hload, he], by rw [enumerate_of_load hA1, he],
    by rw [enumerate_of_load hB1, he], heq,
    fun hrefl => by rw [heq, list_beq_self e hrefl], ?_, ?_⟩
  · intro ops
    obtain ⟨h2, A2, _, hops, _, _, _, hframe⟩ := applyOps_frame ops hA1 hinv
    have hB2 : load h2 (alloc h a).2 = some a := by rw [hframe _ hfresh, hB1]
    exact ⟨h2, A2, hops, hB2, by rw [enumerate_of_load hB2, he]⟩
  · intro ops
    obtain ⟨h2, B2, _, hops, _, _, _, hframe⟩ := applyOps_frame ops hB1 hinv
    have hA2 : load h2 A = some a := by rw [hframe _ (Ne.symm hfresh), hA1]
    exact ⟨h2, B2, hops, hA2, by rw [enumerate_of_load hA2, he]⟩

/-- Witness of C8 (amended): the `CircularBuffer<int>` object with content 1, 2, 3 and
capacity 5 is copied; the copy is on another block, enumerates 1, 2, 3, compares equal to
the original, and each of the two keeps its content under calls on the other. -/
theorem copy_independence_witness :
    load heap123 obj123 = some buf123 ∧ CircularBuffer.Reachable buf123 ∧
      ∃ h1 B, ctor_copy junk0 heap123 obj123 = some (h1, B) ∧
        B.m_buffer ≠ obj123.m_buffer ∧
        load h1 obj123 = some buf123 ∧ load h1 B = some buf123 ∧
        enumerate h1 obj123 = some [1, 2, 3] ∧ enumerate h1 B = some [1, 2, 3] ∧
        operator_eq h1 B obj123 = some true ∧
        (∀ ops : List (Op Int), ∃ h2 A2, applyOps ops h1 obj123 = some (h2, A2) ∧
          load h2 B = some buf123 ∧ enumerate h2 B = some [1, 2, 3]) ∧
        (∀ ops : List (Op Int), ∃ h2 B2, applyOps ops h1 B = some (h2, B2) ∧
          load h2 obj123 = some buf123 ∧ enumerate h2 obj123 = some [1, 2, 3]) := by
  refine ⟨rfl, reachable_buf123, ?_⟩
  obtain ⟨h1, B, e, hcopy, hfresh, _, _, hA1, hB1, heA, heA1, heB1, _, hrefl, hopsA, hopsB⟩ :=
    copy_independence junk0 heap123 obj123 buf123 rfl reachable_buf123
  have he : e = [1, 2, 3] :=
    Option.some.inj (heA.symm.trans (rfl : enumerate heap123 obj123 = some [1, 2, 3]))
  subst he
  exact ⟨h1, B, hcopy, hfresh, hA1, hB1, heA1, heB1,
    hrefl (fun x _ => beq_self_eq_true x), hopsA, hopsB⟩

/-- C9 as stated fails for an element type whose comparison is not reflexive.  `C`
(a `CircularBuffer<Dbl>` holding 9) is assigned from `B` (holding `nan`), both reachable;
afterwards `C` loads the state of `B` and enumerates the same element, and yet `C == B`
is false, because the loop of `operator==` finds `nan != nan`. -/
theorem assignment_replaces_counterexample :
    load heapD9_NaN objOne0 = some bufD9 ∧ load heapD9_NaN objOne1 = some bufNaN ∧
      CircularBuffer.Reachable bufD9 ∧ CircularBuffer.Reachable bufNaN ∧
      ∃ h1 C1, operator_assign junkD heapD9_NaN objOne0 objOne1 false = some (h1, C1) ∧
        load h1 C1 = some bufNaN ∧ load h1 objOne1 = some bufNaN ∧
        enumerate h1 C1 = some [Dbl.nan] ∧ enumerate h1 objOne1 = some [Dbl.nan] ∧
        operator_eq h1 C1 objOne1 = some false :=
  ⟨rfl, rfl, reachable_bufD9, reachable_bufNaN, _, _, rfl, rfl, rfl, rfl, rfl, rfl⟩

/-- C9 (assignment replaces prior content, amended).  Let `C` and `B` be distinct objects
in memory whose states `c` and `b` are reachable, of any capacities and over any element
type.  The assignment `C = B` succeeds; afterwards `C` loads exactly the state of `B`
(capacity, head, tail, count and every slot), so it enumerates the elements `e` that `B`
enumerates; `B` is unchanged; `C` now owns a block of its own, and no later sequence of
`push` and `pop` on `C` changes what `B` loads.  `C == B` is defined and is the
element-wise comparison of `e` with itself: it is true whenever every live element
compares equal to itself (always so for a lawful equality such as that of `int`).  Self-assignment returns the heap and the object unchanged. -/
theorem assignment_replaces [BEq α] (junk : Nat → α) (h : Heap α)
    (C B : Object) (c b : CircularBuffer α) (hC : load h C = some c) (hB : load h B = some b)
    (_hc : CircularBuffer.Reachable c) (hb : CircularBuffer.Reachable b) :
    (∃ h1 C1 e, operator_assign junk h C B false = some (h1, C1) ∧
      load h1 C1 = some b ∧
      C1.m_capacity = B.m_capacity ∧ C1.m_head = B.m_head ∧ C1.m_tail = B.m_tail ∧
      C1.m_count = B.m_count ∧
      enumerate h B = some e ∧ enumerate h1 C1 = some e ∧ enumerate h1 B = some e ∧
      operator_eq h1 C1 B = some (e == e) ∧
      ((∀ x, x ∈ e → (x == x) = true) → operator_eq h1 C1 B = some true) ∧
      load h1 B = some b ∧
      C1.m_buffer ≠ B.m_buffer ∧
      (∀ ops : List (Op α), ∃ h2 C2, applyOps ops h1 C1 = some (h2, C2) ∧
        load h2 B = some b ∧ enumerate h2 B = some e)) ∧
    operator_assign junk h C C true = some (h, C) := by
  have hinv := hb.inv
  obtain ⟨e, he⟩ := CircularBuffer.enumerate_some hinv
  have hasg : operator_assign junk h C B false = some (alloc h b) := by
    simp [operator_assign, hC, hB, CircularBuffer.operator_assign_eq junk c hinv]
  have hB1 : load (alloc h b).1 B = some b := load_alloc_old b hB
  have hC1 : load (alloc h b).1 (alloc h b).2 = some b := load_alloc_new h b
  have hfresh : (alloc h b).2.m_buffer ≠ B.m_buffer := alloc_fresh b hB
  have heq : operator_eq (alloc h b).1 (alloc h b).2 B = some (e == e) := by
    rw [operator_eq_of_load hC1 hB1]; exact CircularBuffer.operator_eq_self_eq he
  obtain ⟨_, _, hcapB, hheadB, htailB, hcountB⟩ := load_eq_some hB
  refine ⟨⟨(alloc h b).1, (alloc h b).2, e, hasg, hC1, hcapB, hheadB, htailB, hcountB,
    by rw [enumerate_of_load hB, he], by rw [enumerate_of_load hC1, he],
    by rw [enumerate_of_load hB1, he], heq,
    fun hrefl => by rw [heq, list_beq_self e hrefl], hB1, hfresh, ?_⟩, ?_⟩
  · intro ops
    obtain ⟨h2, C2, _, hops, _, _, _, hframe⟩ := applyOps_frame ops hC1 hinv
    have hB2 : load h2 B = some b := by rw [hframe _ (Ne.symm hfresh), hB1]
    exact ⟨h2, C2, hops, hB2, by rw [enumerate_of_load hB2, he]⟩
  · simp [operator_assign, hC, CircularBuffer.operator_assign]

/-- Witness of C9 (amended): `C` of capacity 5 with content 9 is assigned from `B` of
capacity 5 with content 1, 2, 3, both `CircularBuffer<int>`; afterwards `C` enumerates
1, 2, 3, compares equal to `B`, and `B` keeps its content under calls on `C`. -/
theorem assignment_replaces_witness :
    load heap9_123 objC = some buf9 ∧ load heap9_123 objB = some buf123 ∧
      CircularBuffer.Reachable buf9 ∧ CircularBuffer.Reachable buf123 ∧
      (∃ h1 C1, operator_assign junk0 heap9_123 objC objB false = some (h1, C1) ∧
        enumerate heap9_123 objC = some [9] ∧ load h1 C1 = some buf123 ∧
        enumerate h1 C1 = some [1, 2, 3] ∧ enumerate h1 objB = some [1, 2, 3] ∧
        operator_eq h1 C1 objB = some true ∧ C1.m_buffer ≠ objB.m_buffer ∧
        (∀ ops : List (Op Int), ∃ h2 C2, applyOps ops h1 C1 = some (h2, C2) ∧
          load h2 objB = some buf123 ∧ enumerate h2 objB = some [1, 2, 3])) ∧
      operator_assign junk0 heap9_123 objC objC true = some (heap9_123, objC) := by
  refine ⟨rfl, rfl, reachable_buf9, reachable_buf123, ?_⟩
  obtain ⟨⟨h1, C1, e, hasg, hC1, _, _, _, _, heB, heC1, heB1, _, hrefl, _, hfresh, hops⟩,
      hself⟩ :=
    assignment_replaces junk0 heap9_123 objC objB buf9 buf123 rfl rfl reachable_buf9
      reachable_buf123
  have he : e = [1, 2, 3] :=
    Option.some.inj (heB.symm.trans (rfl : enumerate heap9_123 objB = some [1, 2, 3]))
  subst he
  exact ⟨⟨h1, C1, hasg, rfl, hC1, heC1, heB1, hrefl (fun x _ => beq_self_eq_true x),
    hfresh, hops⟩, hself⟩

end Mem

/-! ## The driver -/

theorem main_lines7_15_eq (junk : Nat → Int) :
    main_lines7_15 junk = some ([[1, 2, 3, junk 3, junk 4]],
      { m_buffer := 0, m_capacity := 5, m_head := 0, m_tail := 3, m_count := 3 }, [1, 2, 3],
      "Buffer 1 after adding 3 elements: 1 2 3 \n") := rfl

theorem main_lines18_21_eq (junk : Nat → Int) :
    main_lines18_21 junk [[1, 2, 3, junk 3, junk 4]]
      { m_buffer := 0, m_capacity := 5, m_head := 0, m_tail := 3, m_count := 3 } =
    some ([[1, 2, 3, junk 3, junk 4], [1, 2, 3, junk 3, junk 4]],
      { m_buffer := 1, m_capacity := 5, m_head := 0, m_tail := 3, m_count := 3 }, [1, 2, 3],
      "Buffer 2 (copy of Buffer 1): 1 2 3 \n") := rfl

theorem main_lines24_29_eq (junk : Nat → Int) :
    main_lines24_29 [[1, 2, 3, junk 3, junk 4], [1, 2, 3, junk 3, junk 4]]
      { m_buffer := 0, m_capacity := 5, m_head := 0, m_tail := 3, m_count := 3 }
      { m_buffer := 1, m_capacity := 5, m_head := 0, m_tail := 3, m_count := 3 } =
    some ([[6, 2, 3, 4, 5], [1, 2, 3, junk 3, junk 4]],
      { m_buffer := 0, m_capacity := 5, m_head := 1, m_tail := 1, m_count := 5 },
      [2, 3, 4, 5, 6], [1, 2, 3],
      "Buffer 1 after adding 3 more elements (exceeding capacity): 2 3 4 5 6 \n") := by
  simp [main_lines24_29, Mem.push, Mem.load, Mem.store, Mem.enumerate, Mem.display,
    CircularBuffer.push, CircularBuffer.enumerate, CircularBuffer.enumLoop,
    CircularBuffer.display, CircularBuffer.displayLoop, CircularBuffer.is_full,
    CircularBuffer.is_empty, writeSlot, readSlot, modSize]
  rfl

theorem main_lines32_46_eq (junk : Nat → Int) :
    main_lines32_46 junk [[6, 2, 3, 4, 5], [1, 2, 3, junk 3, junk 4]]
      { m_buffer := 1, m_capacity := 5, m_head := 0, m_tail := 3, m_count := 3 } =
    some ([[6, 2, 3, 4, 5], [1, 2, 3, junk 3, junk 4],
        [junk 0, junk 1, junk 2, junk 3, junk 4], [1, 2, 3, junk 3, junk 4]],
      { m_buffer := 3, m_capacity := 5, m_head := 0, m_tail := 3, m_count := 3 },
      [1, 2, 3], true,
      "Buffer 3 (assigned from Buffer2): 1 2 3 \nBuffer 2 is equal to Buffer 3.\n") := rfl

theorem main_lines49_60_eq (junk : Nat → Int) :
    main_lines49_60 [[6, 2, 3, 4, 5], [1, 2, 3, junk 3, junk 4],
        [junk 0, junk 1, junk 2, junk 3, junk 4], [1, 2, 3, junk 3, junk 4]]
      { m_buffer := 1, m_capacity := 5, m_head := 0, m_tail := 3, m_count := 3 }
      { m_buffer := 3, m_capacity := 5, m_head := 0, m_tail := 3, m_count := 3 } =
    some ([1, 2, 3], [2, 3], true,
      "Buffer 2: 1 2 3 \nBuffer 3: 2 3 \nBuffer 2 is not equal to Buffer 3.\n") := rfl

/-- C10 (end-to-end scenario of the driver).  Whatever the fresh storage holds, `main`
runs to completion: after `push` of 1, 2, 3 `buffer1` enumerates 1, 2, 3; its copy
`buffer2` enumerates 1, 2, 3; after `push` of 4, 5, 6 `buffer1` enumerates 2, 3, 4, 5, 6
while `buffer2` still enumerates 1, 2, 3; after `buffer3(5)` is assigned from `buffer2` it
enumerates 1, 2, 3 and `buffer2 == buffer3` is true; after one `pop` from `buffer3` it
enumerates 2, 3, `buffer2` still enumerates 1, 2, 3 and `buffer2 != buffer3` is true; the
text printed is the one given. -/
theorem main_scenario (junk : Nat → Int) :
    main junk = some
      { buffer1_line12 := [1, 2, 3]
        buffer2_line18 := [1, 2, 3]
        buffer1_line26 := [2, 3, 4, 5, 6]
        buffer2_line26 := [1, 2, 3]
        buffer3_line33 := [1, 2, 3]
        eq_line39 := true
        buffer2_line49 := [1, 2, 3]
        buffer3_line49 := [2, 3]
        ne_line57 := true
        out := "Buffer 1 after adding 3 elements: 1 2 3 \nBuffer 2 (copy of Buffer 1): 1 2 3 \nBuffer 1 after adding 3 more elements (exceeding capacity): 2 3 4 5 6 \nBuffer 3 (assigned from Buffer2): 1 2 3 \nBuffer 2 is equal to Buffer 3.\nBuffer 2: 1 2 3 \nBuffer 3: 2 3 \nBuffer 2 is not equal to Buffer 3.\n" } := by
  unfold main
  rw [main_lines7_15_eq]
  simp only [Option.bind_eq_bind, Option.some_bind, Option.pure_def, bind, pure]
  rw [main_lines18_21_eq]
  simp only [Option.some_bind]
  rw [main_lines24_29_eq]
  simp only [Option.some_bind]
  rw [main_lines32_46_eq]
  simp only [Option.some_bind]
  rw [main_lines49_60_eq]
  rfl

/-! ## Draining -/

namespace CircularBuffer

variable {α : Type}

theorem popN_of_empty {b : CircularBuffer α} (he : b.m_count = 0) :
    ∀ k, popN k b = some b := by
  intro k
  induction k with
  | zero => rfl
  | succ k ih => simp only [popN, pop_empty b he]; exact ih

/-- Iterated `pop` on a well-formed buffer: it succeeds, keeps the buffer well-formed and
the capacity, and the count is the truncated difference. -/
theorem popN_spec :
    ∀ (k : Nat) {b : CircularBuffer α}, Inv b →
      ∃ bk, popN k b = some bk ∧ Inv bk ∧ bk.m_count = b.m_count - k ∧
        bk.m_capacity = b.m_capacity := by
  intro k
  induction k with
  | zero => intro b h; exact ⟨b, rfl, h, rfl, rfl⟩
  | succ k ih =>
    intro b h
    by_cases he : b.m_count = 0
    · obtain ⟨bk, hk, hinv, hcnt, hcap⟩ := ih h
      refine ⟨bk, ?_, hinv, by omega, hcap⟩
      simp only [popN, pop_empty b he]; exact hk
    · have hp := pop_eq h he
      obtain ⟨bk, hk, hinv, hcnt, hcap⟩ := ih (inv_pop h hp)
      refine ⟨bk, ?_, hinv, ?_, hcap⟩
      · simp only [popN, hp]; exact hk
      · simp only at hcnt; omega

theorem popN_add (j k : Nat) :
    ∀ b : CircularBuffer α, popN (j + k) b = (popN j b).bind (popN k) := by
  induction j with
  | zero => intro b; simp [popN]
  | succ j ih =>
    intro b
    rw [Nat.succ_add]
    simp only [popN]
    cases hp : pop b with
    | none => rfl
    | some r => exact ih r.1

theorem reachable_popN :
    ∀ (k : Nat) {b bk : CircularBuffer α}, Reachable b → popN k b = some bk → Reachable bk := by
  intro k
  induction k with
  | zero =>
    intro b bk hb h
    simp only [popN] at h
    exact (Option.some.inj h) ▸ hb
  | succ k ih =>
    intro b bk hb h
    simp only [popN] at h
    cases hp : pop b with
    | none => rw [hp] at h; exact Option.noConfusion h
    | some r =>
      obtain ⟨b2, out⟩ := r
      rw [hp] at h
      exact ih (Reachable.pop hb hp) h

/-- C11 (draining).  On a reachable buffer with count `n`, `n` calls of `pop` succeed and
leave an empty buffer of the same capacity; after fewer calls the buffer is not empty;
any number of further calls returns the very same drained state, a further `pop` prints
the diagnostic and changes nothing, and the drained state is reachable and satisfies the
representation invariant. -/
theorem draining {b : CircularBuffer α} (hb : Reachable b) :
    ∃ b1, popN b.m_count b = some b1 ∧
      b1.m_count = 0 ∧ is_empty b1 = true ∧ b1.m_capacity = b.m_capacity ∧
      (∀ k, k < b.m_count → ∃ bk, popN k b = some bk ∧ bk.m_count ≠ 0 ∧ is_empty bk = false) ∧
      (∀ k, popN (b.m_count + k) b = some b1) ∧
      pop b1 = some (b1, "Buffer is empty. Cannot remove element.\n") ∧
      Reachable b1 ∧ Inv b1 := by
  obtain ⟨b1, h1, hinv1, hcnt1, hcap1⟩ := popN_spec b.m_count hb.inv
  have h0 : b1.m_count = 0 := by omega
  refine ⟨b1, h1, h0, by simp [is_empty, h0], hcap1, ?_, ?_, pop_empty b1 h0,
    reachable_popN b.m_count hb h1, hinv1⟩
  · intro k hk
    obtain ⟨bk, hbk, _, hcnt, _⟩ := popN_spec k hb.inv
    have hne : bk.m_count ≠ 0 := by omega
    exact ⟨bk, hbk, hne, by simp [is_empty, hne]⟩
  · intro k
    rw [popN_add, h1]
    exact popN_of_empty h0 k

/-- Witness of C11 on the buffer holding 1, 2, 3: three calls of `pop` drain it. -/
theorem draining_witness :
    Reachable buf123 ∧
      ∃ b1, popN buf123.m_count buf123 = some b1 ∧
        b1.m_count = 0 ∧ is_empty b1 = true ∧ b1.m_capacity = buf123.m_capacity ∧
        (∀ k, k < buf123.m_count →
          ∃ bk, popN k buf123 = some bk ∧ bk.m_count ≠ 0 ∧ is_empty bk = false) ∧
        (∀ k, popN (buf123.m_count + k) buf123 = some b1) ∧
        pop b1 = some (b1, "Buffer is empty. Cannot remove element.\n") ∧
        Reachable b1 ∧ Inv b1 :=
  ⟨reachable_buf123, draining reachable_buf123⟩

end CircularBuffer

/-! ## The text printed by `display` -/

theorem string_join_cons (x : String) (xs : List String) :
    String.join (x :: xs) = x ++ String.join xs := by
  apply String.ext
  simp [String.data_join]

namespace CircularBuffer

variable {α : Type}

/-- The loop of `display` prints the visited slots in loop order, each followed by one
space. -/
theorem displayLoop_eq [ToString α] (b : CircularBuffer α) :
    ∀ (n i : Nat) (e : List α), enumLoop b n i = some e →
      displayLoop b n i = some (String.join (e.map fun v => toString v ++ " ")) := by
  intro n
  induction n with
  | zero =>
    intro i e he
    simp only [enumLoop] at he
    rw [← Option.some.inj he]
    rfl
  | succ n ih =>
    intro i e he
    obtain ⟨k, v, r, hk, hv, hr, rfl⟩ := enumLoop_succ_inv he
    simp only [displayLoop, hk, hv, ih (i + 1) r hr, List.map_cons, string_join_cons]

/-- Closed form of `display` in terms of the logical enumeration. -/
theorem display_eq [ToString α] {b : CircularBuffer α} {e : List α}
    (he : enumerate b = some e) :
    display b = some (if b.m_count = 0 then "Buffer is empty.\n"
      else String.join (e.map fun v => toString v ++ " ") ++ "\n") := by
  unfold display
  by_cases h0 : b.m_count = 0
  · simp [is_empty, h0]
  · simp only [is_empty, beq_iff_eq, h0, if_false, displayLoop_eq b b.m_count 0 e he]

/-- C12 as stated fails.  On the reachable empty buffer `fresh5` the text is
`"Buffer is empty.\n"`, not the bare line break the stated format gives for no elements;
on the reachable buffer `buf123` holding 1, 2, 3 the text is `"1 2 3 \n"`, with a space
after the last element, not `"1 2 3\n"`. -/
theorem display_format_counterexample :
    (Reachable fresh5 ∧ enumerate fresh5 = some [] ∧
        display fresh5 = some "Buffer is empty.\n" ∧
        display_spec ([] : List Int) = "\n" ∧
        display fresh5 ≠ some (display_spec ([] : List Int))) ∧
      (Reachable buf123 ∧ enumerate buf123 = some [1, 2, 3] ∧
        display buf123 = some "1 2 3 \n" ∧
        display_spec ([1, 2, 3] : List Int) = "1 2 3\n" ∧
        display buf123 ≠ some (display_spec ([1, 2, 3] : List Int))) :=
  ⟨⟨reachable_fresh5, by decide, by decide, by decide, by decide⟩,
    ⟨reachable_buf123, by decide, by decide, by decide, by decide⟩⟩

/-- C12 (display format, amended).  On every reachable buffer `display` succeeds; on an
empty buffer it prints `Buffer is empty.` and a line break; on a non-empty buffer it
prints the live elements oldest first, each in its textual representation and each
followed by one space, and then a line break.  `display` is a `const` member without
assignments: it maps the state to the text and the state after the call is the state
before it. -/
theorem display_format [ToString α] {b : CircularBuffer α} (hb : Reachable b) :
    ∃ e, enumerate b = some e ∧
      (is_empty b = true → display b = some "Buffer is empty.\n") ∧
      (is_empty b = false →
        display b = some (String.join (e.map fun v => toString v ++ " ") ++ "\n")) := by
  obtain ⟨e, he⟩ := enumerate_some hb.inv
  refine ⟨e, he, ?_, ?_⟩
  · intro hemp
    have h0 : b.m_count = 0 := by simpa [is_empty] using hemp
    rw [display_eq he, if_pos h0]
  · intro hemp
    have h0 : b.m_count ≠ 0 := by simpa [is_empty] using hemp
    rw [display_eq he, if_neg h0]

/-- Witness of C12 (amended) on the buffer holding 1, 2, 3. -/
theorem display_format_witness :
    Reachable buf123 ∧ is_empty buf123 = false ∧ display buf123 = some "1 2 3 \n" :=
  ⟨reachable_buf123, rfl,
    match display_format reachable_buf123 with
    | ⟨e, he, _, hne⟩ =>
      have h1 : e = [1, 2, 3] :=
        Option.some.inj (he.symm.trans (rfl : enumerate buf123 = some [1, 2, 3]))
      (hne rfl).trans (h1 ▸ rfl)⟩

end CircularBuffer

/-! ## Stale slots -/

namespace CircularBuffer

variable {α : Type}

/-- Buffers that differ at most in stale slots have the same logical enumeration. -/
theorem SameLive.enumerate_eq {a b : CircularBuffer α} (ha : Inv a) (hb : Inv b)
    (hab : SameLive a b) : ∃ e, enumerate a = some e ∧ enumerate b = some e := by
  obtain ⟨hcap, hhead, _, hcount, hslots⟩ := hab
  obtain ⟨e, he⟩ := enumerate_some ha
  obtain ⟨hlen, hsl⟩ := (enumerate_eq_some_iff a ha.cap_pos e).mp he
  refine ⟨e, he, (enumerate_eq_some_iff b hb.cap_pos e).mpr ⟨by rw [← hcount]; exact hlen, ?_⟩⟩
  intro j hj
  rw [← hcap, ← hhead, ← hslots j (by rw [hcount]; exact hj)]
  exact hsl j (by rw [hcount]; exact hj)

/-- Equal fields and equal enumerations give agreement on the live slots. -/
theorem sameLive_of_enumerate_eq {a b : CircularBuffer α} (ha : Inv a) (hb : Inv b)
    (hcap : a.m_capacity = b.m_capacity) (hhead : a.m_head = b.m_head)
    (htail : a.m_tail = b.m_tail) (hcount : a.m_count = b.m_count) {e : List α}
    (hea : enumerate a = some e) (heb : enumerate b = some e) : SameLive a b := by
  refine ⟨hcap, hhead, htail, hcount, ?_⟩
  intro i hi
  have h1 := ((enumerate_eq_some_iff a ha.cap_pos e).mp hea).2 i hi
  have h2 := ((enumerate_eq_some_iff b hb.cap_pos e).mp heb).2 i (by rw [← hcount]; exact hi)
  rw [h1, hcap, hhead, h2]

/-- One mutating call keeps two buffers that differ at most in stale slots in that
relation. -/
theorem SameLive.applyOp {a b a1 b1 : CircularBuffer α} (ha : Inv a) (hb : Inv b)
    (hab : SameLive a b) (op : Op α) (h1 : CircularBuffer.applyOp a op = some a1)
    (h2 : CircularBuffer.applyOp b op = some b1) : Inv a1 ∧ Inv b1 ∧ SameLive a1 b1 := by
  obtain ⟨e, hea, heb⟩ := hab.enumerate_eq ha hb
  obtain ⟨hcap, hhead, htail, hcount, _⟩ := hab
  cases op with
  | push x =>
    simp only [CircularBuffer.applyOp] at h1 h2
    have hi1 := inv_push ha h1
    have hi2 := inv_push hb h2
    have he1 := enumerate_push ha hea h1
    have he2 := enumerate_push hb heb h2
    rw [← hcount, ← hcap] at he2
    rw [push_eq ha x] at h1
    rw [push_eq hb x] at h2
    have e1 := (Option.some.inj h1).symm
    have e2 := (Option.some.inj h2).symm
    refine ⟨hi1, hi2, sameLive_of_enumerate_eq hi1 hi2 ?_ ?_ ?_ ?_ he1 he2⟩
    · rw [e1, e2]; exact hcap
    · rw [e1, e2]; simp only [hcap, hhead, hcount]
    · rw [e1, e2]; simp only [hcap, htail]
    · rw [e1, e2]; simp only [hcap, hcount]
  | pop =>
    by_cases h0 : a.m_count = 0
    · have h0b : b.m_count = 0 := by rw [← hcount]; exact h0
      simp only [CircularBuffer.applyOp, pop_empty a h0, Option.map_some'] at h1
      simp only [CircularBuffer.applyOp, pop_empty b h0b, Option.map_some'] at h2
      rw [← Option.some.inj h1, ← Option.some.inj h2]
      exact ⟨ha, hb, sameLive_of_enumerate_eq ha hb hcap hhead htail hcount hea heb⟩
    · have h0b : b.m_count ≠ 0 := by rw [← hcount]; exact h0
      have hp1 := pop_eq ha h0
      have hp2 := pop_eq hb h0b
      have hi1 := inv_pop ha hp1
      have hi2 := inv_pop hb hp2
      have he1 := enumerate_pop ha h0 hea hp1
      have he2 := enumerate_pop hb h0b heb hp2
      simp only [CircularBuffer.applyOp, hp1, Option.map_some'] at h1
      simp only [CircularBuffer.applyOp, hp2, Option.map_some'] at h2
      rw [← Option.some.inj h1, ← Option.some.inj h2]
      refine ⟨hi1, hi2, sameLive_of_enumerate_eq hi1 hi2 hcap ?_ htail ?_ he1 he2⟩
      · simp only [hcap, hhead]
      · simp only [hcount]

/-- A sequence of mutating calls succeeds on both buffers and keeps the relation. -/
theorem SameLive.applyOps (ops : List (Op α)) :
    ∀ {a b : CircularBuffer α}, Inv a → Inv b → SameLive a b →
      ∃ a1 b1, CircularBuffer.applyOps ops a = some a1 ∧
        CircularBuffer.applyOps ops b = some b1 ∧ Inv a1 ∧ Inv b1 ∧ SameLive a1 b1 := by
  induction ops with
  | nil => intro a b ha hb hab; exact ⟨a, b, rfl, rfl, ha, hb, hab⟩
  | cons op ops ih =>
    intro a b ha hb hab
    obtain ⟨a2, h1, _⟩ := applyOp_some ha op
    obtain ⟨b2, h2, _⟩ := applyOp_some hb op
    obtain ⟨hi1, hi2, hab2⟩ := hab.applyOp ha hb op h1 h2
    obtain ⟨a1, b1, hr1, hr2, hrest⟩ := ih hi1 hi2 hab2
    refine ⟨a1, b1, ?_, ?_, hrest⟩
    · simp only [CircularBuffer.applyOps, h1]; exact hr1
    · simp only [CircularBuffer.applyOps, h2]; exact hr2

/-- The comparison loop reads the left operand only at the visited slots. -/
theorem eqLoop_congr_left [BEq α] {a b : CircularBuffer α} (c : CircularBuffer α)
    (hcap : a.m_capacity = b.m_capacity) (hhead : a.m_head = b.m_head) :
    ∀ (n i : Nat),
      (∀ j, j < n → a.m_buffer[(a.m_head + (i + j)) % a.m_capacity]? =
        b.m_buffer[(a.m_head + (i + j)) % a.m_capacity]?) →
      eqLoop a c n i = eqLoop b c n i := by
  intro n
  induction n with
  | zero => intro i _; rfl
  | succ n ih =>
    intro i hs
    have hrec : eqLoop a c n (i + 1) = eqLoop b c n (i + 1) := by
      apply ih
      intro j hj
      have := hs (j + 1) (by omega)
      rw [Nat.add_assoc, Nat.add_comm 1 j]
      exact this
    have h0 := hs 0 (Nat.succ_pos n)
    rw [Nat.add_zero] at h0
    simp only [eqLoop, ← hcap, ← hhead, hrec]
    unfold modSize
    by_cases hz : a.m_capacity = 0
    · simp [hz]
    · simp only [hz, if_false, readSlot, h0]

/-- The comparison loop reads the right operand only at the visited slots. -/
theorem eqLoop_congr_right [BEq α] {a b : CircularBuffer α} (c : CircularBuffer α)
    (hcap : a.m_capacity = b.m_capacity) (hhead : a.m_head = b.m_head) :
    ∀ (n i : Nat),
      (∀ j, j < n → a.m_buffer[(a.m_head + (i + j)) % a.m_capacity]? =
        b.m_buffer[(a.m_head + (i + j)) % a.m_capacity]?) →
      eqLoop c a n i = eqLoop c b n i := by
  intro n
  induction n with
  | zero => intro i _; rfl
  | succ n ih =>
    intro i hs
    have hrec : eqLoop c a n (i + 1) = eqLoop c b n (i + 1) := by
      apply ih
      intro j hj
      have := hs (j + 1) (by omega)
      rw [Nat.add_assoc, Nat.add_comm 1 j]
      exact this
    have h0 := hs 0 (Nat.succ_pos n)
    rw [Nat.add_zero] at h0
    simp only [eqLoop, ← hcap, ← hhead, hrec]
    unfold modSize
    by_cases hz : a.m_capacity = 0
    · simp [hz]
    · simp only [hz, if_false, readSlot, h0]

/-- Comparison with any third buffer does not see stale slots. -/
theorem SameLive.operator_eq_congr [BEq α] {a b : CircularBuffer α} (hab : SameLive a b)
    (c : CircularBuffer α) :
    operator_eq a c = operator_eq b c ∧ operator_eq c a = operator_eq c b := by
  obtain ⟨hcap, hhead, _, hcount, hslots⟩ := hab
  constructor
  · unfold operator_eq
    rw [← hcap, ← hcount,
      eqLoop_congr_left c hcap hhead a.m_count 0 (by simpa using hslots)]
  · unfold operator_eq
    rw [← hcap, ← hcount]
    by_cases hc : c.m_count = a.m_count
    · rw [eqLoop_congr_right c hcap hhead c.m_count 0 (by rw [hc]; simpa using hslots)]
    · simp [hc]

end CircularBuffer

/-! ## Claims on stale slots, inequality, the stored tail and index safety -/

theorem inv_buf123stale : CircularBuffer.Inv buf123stale :=
  ⟨by decide, by decide, by decide, by decide, by decide⟩

theorem sameLive_buf123_stale : CircularBuffer.SameLive buf123 buf123stale := by
  refine ⟨rfl, rfl, rfl, rfl, ?_⟩
  intro i hi
  have h3 : i < 3 := hi
  have : i = 0 ∨ i = 1 ∨ i = 2 := by omega
  rcases this with rfl | rfl | rfl <;> rfl

namespace CircularBuffer

variable {α : Type}

/-- C13 (stale slots are unobservable).  Let `a` and `b` be well-formed buffers with the
same capacity, head, tail and count that agree on every live slot.  Every sequence of
`push` and `pop` calls succeeds on both and leads to buffers with the same enumeration,
the same `is_empty` and `is_full` results, the same `display` text and the same
`operator==` result against any third buffer, on either side of the comparison. -/
theorem stale_slots_unobservable [ToString α] [BEq α] {a b : CircularBuffer α}
    (ha : Inv a) (hb : Inv b) (hab : SameLive a b) (ops : List (Op α)) :
    ∃ a1 b1 e t, applyOps ops a = some a1 ∧ applyOps ops b = some b1 ∧
      enumerate a1 = some e ∧ enumerate b1 = some e ∧
      is_empty a1 = is_empty b1 ∧ is_full a1 = is_full b1 ∧
      display a1 = some t ∧ display b1 = some t ∧
      ∀ c : CircularBuffer α,
        operator_eq a1 c = operator_eq b1 c ∧ operator_eq c a1 = operator_eq c b1 := by
  obtain ⟨a1, b1, h1, h2, hi1, hi2, hab1⟩ := hab.applyOps ops ha hb
  obtain ⟨e, he1, he2⟩ := hab1.enumerate_eq hi1 hi2
  have hcap := hab1.1
  have hcount := hab1.2.2.2.1
  refine ⟨a1, b1, e, _, h1, h2, he1, he2, ?_, ?_, display_eq he1, ?_, ?_⟩
  · simp only [is_empty, hcount]
  · simp only [is_full, hcount, hcap]
  · rw [display_eq he2, hcount]
  · intro c
    exact hab1.operator_eq_congr c

/-- Witness of C13: `buf123` and `buf123stale` differ in their two stale slots only. -/
theorem stale_slots_unobservable_witness :
    Inv buf123 ∧ Inv buf123stale ∧ SameLive buf123 buf123stale ∧
      buf123.m_buffer ≠ buf123stale.m_buffer ∧
      ∃ a1 b1 e t, applyOps [Op.push 4, Op.pop, Op.push 5] buf123 = some a1 ∧
        applyOps [Op.push 4, Op.pop, Op.push 5] buf123stale = some b1 ∧
        enumerate a1 = some e ∧ enumerate b1 = some e ∧
        is_empty a1 = is_empty b1 ∧ is_full a1 = is_full b1 ∧
        display a1 = some t ∧ display b1 = some t ∧
        ∀ c : CircularBuffer Int,
          operator_eq a1 c = operator_eq b1 c ∧ operator_eq c a1 = operator_eq c b1 :=
  ⟨reachable_buf123.inv, inv_buf123stale, sameLive_buf123_stale, by decide,
    stale_slots_unobservable reachable_buf123.inv inv_buf123stale sameLive_buf123_stale
      [Op.push 4, Op.pop, Op.push 5]⟩

/-- C15 (stored tail).  In every reachable state the stored field `m_tail` equals
`(m_head + m_count) % m_capacity` and is below the capacity; `push` therefore writes the
item into exactly that slot. -/
theorem stored_tail {b : CircularBuffer α} (hb : Reachable b) :
    b.m_tail = (b.m_head + b.m_count) % b.m_capacity ∧ 0 ≤ b.m_tail ∧
      b.m_tail < b.m_capacity ∧
      ∀ x : α, ∃ b1, push b x = some b1 ∧
        b1.m_buffer = b.m_buffer.set ((b.m_head + b.m_count) % b.m_capacity) x ∧
        b1.m_buffer[(b.m_head + b.m_count) % b.m_capacity]? = some x := by
  have hinv := hb.inv
  have hlt : b.m_tail < b.m_capacity := by
    rw [hinv.tail_eq]; exact Nat.mod_lt _ hinv.cap_pos
  refine ⟨hinv.tail_eq, Nat.zero_le _, hlt, ?_⟩
  intro x
  refine ⟨_, push_eq hinv x, by simp only [hinv.tail_eq], ?_⟩
  simp only
  rw [← hinv.tail_eq]
  exact List.getElem?_set_self (by rw [hinv.size_eq]; exact hlt)

/-- Witness of C15 on the wrapped buffer `bufA`, whose tail is 1. -/
theorem stored_tail_witness :
    Reachable bufA ∧ bufA.m_tail = (bufA.m_head + bufA.m_count) % bufA.m_capacity ∧
      0 ≤ bufA.m_tail ∧ bufA.m_tail < bufA.m_capacity ∧
      ∀ x : Int, ∃ b1, push bufA x = some b1 ∧
        b1.m_buffer = bufA.m_buffer.set ((bufA.m_head + bufA.m_count) % bufA.m_capacity) x ∧
        b1.m_buffer[(bufA.m_head + bufA.m_count) % bufA.m_capacity]? = some x :=
  ⟨reachable_bufA, stored_tail reachable_bufA⟩

/-- C16 (index safety).  For reachable buffers `a` and `b`: the capacity is not zero, so
every `%` is defined; the block has exactly capacity slots; the slot `m_tail` written by
`push` and every slot `(m_head + i) % m_capacity` read by `display` and, on either
operand, by `operator==` lies inside the block; hence `push`, `pop`, `display` and
`operator==` never take an undefined branch. -/
theorem index_safety [ToString α] [BEq α] {a b : CircularBuffer α}
    (ha : Reachable a) (hb : Reachable b) :
    (a.m_capacity ≠ 0 ∧ ∀ n, modSize n a.m_capacity = some (n % a.m_capacity)) ∧
      a.m_buffer.length = a.m_capacity ∧
      (a.m_tail < a.m_buffer.length ∧
        ∀ x, writeSlot a.m_buffer a.m_tail x = some (a.m_buffer.set a.m_tail x)) ∧
      (∀ i, (a.m_head + i) % a.m_capacity < a.m_buffer.length ∧
        ∃ v, readSlot a.m_buffer ((a.m_head + i) % a.m_capacity) = some v) ∧
      (∀ i, (b.m_head + i) % b.m_capacity < b.m_buffer.length ∧
        ∃ v, readSlot b.m_buffer ((b.m_head + i) % b.m_capacity) = some v) ∧
      (∀ x, ∃ a1, push a x = some a1) ∧ (∃ a1 out, pop a = some (a1, out)) ∧
      (∃ t, display a = some t) ∧ (∃ r, operator_eq a b = some r) := by
  have hia := ha.inv
  have hib := hb.inv
  have hslot : ∀ {c : CircularBuffer α}, Inv c → ∀ i,
      (c.m_head + i) % c.m_capacity < c.m_buffer.length ∧
        ∃ v, readSlot c.m_buffer ((c.m_head + i) % c.m_capacity) = some v := by
    intro c hc i
    have hlt : (c.m_head + i) % c.m_capacity < c.m_buffer.length := by
      rw [hc.size_eq]; exact Nat.mod_lt _ hc.cap_pos
    exact ⟨hlt, _, List.getElem?_eq_getElem hlt⟩
  have htail : a.m_tail < a.m_buffer.length := by
    rw [hia.size_eq, hia.tail_eq]; exact Nat.mod_lt _ hia.cap_pos
  obtain ⟨ea, hea⟩ := enumerate_some hia
  obtain ⟨eb, heb⟩ := enumerate_some hib
  refine ⟨⟨Nat.pos_iff_ne_zero.mp hia.cap_pos, fun n => modSize_of_pos n hia.cap_pos⟩,
    hia.size_eq, ⟨htail, fun x => by simp [writeSlot, htail]⟩, hslot hia, hslot hib,
    fun x => ⟨_, push_eq hia x⟩, ?_, ⟨_, display_eq hea⟩, ⟨_, operator_eq_eq hea heb⟩⟩
  by_cases h0 : a.m_count = 0
  · exact ⟨_, _, pop_empty a h0⟩
  · exact ⟨_, _, pop_eq hia h0⟩

/-- Witness of C16 on the wrapped buffer `bufA` and the unwrapped buffer `bufB`. -/
theorem index_safety_witness :
    Reachable bufA ∧ Reachable bufB ∧
      (∃ a1, push bufA 7 = some a1) ∧ (∃ t, display bufA = some t) ∧
      (∃ r, operator_eq bufA bufB = some r) :=
  ⟨reachable_bufA, reachable_bufB,
    match index_safety reachable_bufA reachable_bufB with
    | ⟨_, _, _, _, _, hpush, _, hdisp, heq⟩ => ⟨hpush 7, hdisp, heq⟩⟩

end CircularBuffer

/-! ## Claims on equality as a relation and on overwriting -/

theorem reachable_bufA2 : CircularBuffer.Reachable bufA2 :=
  CircularBuffer.reachable_pushAll [0, 1, 2, 3, 4, 5, 6] reachable_fresh5 (by decide)

namespace CircularBuffer

variable {α : Type}

/-- On well-formed buffers over a type with lawful equality, `operator==` answers `true`
exactly when capacities, counts and enumerations agree. -/
theorem operator_eq_true_iff [BEq α] [LawfulBEq α] {a b : CircularBuffer α} (ha : Inv a)
    (hb : Inv b) :
    operator_eq a b = some true ↔
      a.m_capacity = b.m_capacity ∧ a.m_count = b.m_count ∧ enumerate a = enumerate b := by
  obtain ⟨ea, hea⟩ := enumerate_some ha
  obtain ⟨eb, heb⟩ := enumerate_some hb
  rw [operator_eq_eq hea heb, hea, heb]
  simp [and_assoc]

/-- C17 (equality is a congruence for the mutators).  For reachable buffers `a` and `b`
over an element type with lawful equality, if `a == b` is true then `push` of the same
item succeeds on both with equal results and `pop` succeeds on both with equal results,
whatever the head offsets are. -/
theorem equality_congruence [BEq α] [LawfulBEq α] {a b : CircularBuffer α}
    (ha : Reachable a) (hb : Reachable b) (heq : operator_eq a b = some true) (x : α) :
    (∃ a1 b1, push a x = some a1 ∧ push b x = some b1 ∧ operator_eq a1 b1 = some true) ∧
      (∃ a1 b1 oa ob, pop a = some (a1, oa) ∧ pop b = some (b1, ob) ∧
        operator_eq a1 b1 = some true) := by
  have hia := ha.inv
  have hib := hb.inv
  obtain ⟨hcap, hcount, hen⟩ := (operator_eq_true_iff hia hib).mp heq
  obtain ⟨e, hea⟩ := enumerate_some hia
  have heb : enumerate b = some e := by rw [← hen]; exact hea
  constructor
  · obtain ⟨a1, hp1⟩ : ∃ a1, push a x = some a1 := ⟨_, push_eq hia x⟩
    obtain ⟨b1, hp2⟩ : ∃ b1, push b x = some b1 := ⟨_, push_eq hib x⟩
    have hi1 := inv_push hia hp1
    have hi2 := inv_push hib hp2
    have he1 := enumerate_push hia hea hp1
    have he2 := enumerate_push hib heb hp2
    rw [← hcount, ← hcap] at he2
    refine ⟨a1, b1, hp1, hp2, ?_⟩
    rw [operator_eq_true_iff hi1 hi2]
    refine ⟨?_, ?_, he1.trans he2.symm⟩
    · rw [push_capacity hia hp1, push_capacity hib hp2]; exact hcap
    · rw [← enumerate_length hi1 he1, ← enumerate_length hi2 he2]
  · by_cases h0 : a.m_count = 0
    · have h0b : b.m_count = 0 := by rw [← hcount]; exact h0
      exact ⟨a, b, _, _, pop_empty a h0, pop_empty b h0b, heq⟩
    · have h0b : b.m_count ≠ 0 := by rw [← hcount]; exact h0
      have hp1 := pop_eq hia h0
      have hp2 := pop_eq hib h0b
      have he1 := enumerate_pop hia h0 hea hp1
      have he2 := enumerate_pop hib h0b heb hp2
      refine ⟨_, _, _, _, hp1, hp2, ?_⟩
      rw [operator_eq_true_iff (inv_pop hia hp1) (inv_pop hib hp2)]
      exact ⟨hcap, by simp only [hcount], he1.trans he2.symm⟩

/-- Witness of C17: `bufA` (head 1) and `bufB` (head 0) are equal, and so are the results
of `push(7)` and of `pop()` on them. -/
theorem equality_congruence_witness :
    Reachable bufA ∧ Reachable bufB ∧ operator_eq bufA bufB = some true ∧
      bufA.m_head ≠ bufB.m_head ∧
      (∃ a1 b1, push bufA 7 = some a1 ∧ push bufB 7 = some b1 ∧
        operator_eq a1 b1 = some true) ∧
      (∃ a1 b1 oa ob, pop bufA = some (a1, oa) ∧ pop bufB = some (b1, ob) ∧
        operator_eq a1 b1 = some true) :=
  ⟨reachable_bufA, reachable_bufB, by decide, by decide,
    equality_congruence reachable_bufA reachable_bufB (by decide) 7⟩

/-- C18 (`operator==` is an equivalence relation).  On reachable buffers over an element
type whose `!=` is the negation of a lawful equality, `a == a` is true, `a == b` true
implies `b == a` true, and `a == b` and `b == c` true imply `a == c` true. -/
theorem equality_equivalence [BEq α] [LawfulBEq α] {a b c : CircularBuffer α}
    (ha : Reachable a) (hb : Reachable b) (hc : Reachable c) :
    operator_eq a a = some true ∧
      (operator_eq a b = some true → operator_eq b a = some true) ∧
      (operator_eq a b = some true → operator_eq b c = some true →
        operator_eq a c = some true) := by
  have hia := ha.inv
  have hib := hb.inv
  have hic := hc.inv
  refine ⟨operator_eq_self hia, ?_, ?_⟩
  · intro hab
    obtain ⟨h1, h2, h3⟩ := (operator_eq_true_iff hia hib).mp hab
    exact (operator_eq_true_iff hib hia).mpr ⟨h1.symm, h2.symm, h3.symm⟩
  · intro hab hbc
    obtain ⟨h1, h2, h3⟩ := (operator_eq_true_iff hia hib).mp hab
    obtain ⟨k1, k2, k3⟩ := (operator_eq_true_iff hib hic).mp hbc
    exact (operator_eq_true_iff hia hic).mpr ⟨h1.trans k1, h2.trans k2, h3.trans k3⟩

/-- Witness of C18 on three reachable buffers with heads 1, 0 and 2 that all hold
2, 3, 4, 5, 6. -/
theorem equality_equivalence_witness :
    Reachable bufA ∧ Reachable bufB ∧ Reachable bufA2 ∧
      operator_eq bufA bufB = some true ∧ operator_eq bufB bufA2 = some true ∧
      operator_eq bufA bufA = some true ∧ operator_eq bufB bufA = some true ∧
      operator_eq bufA bufA2 = some true :=
  ⟨reachable_bufA, reachable_bufB, reachable_bufA2, by decide, by decide,
    match equality_equivalence reachable_bufA reachable_bufB reachable_bufA2 with
    | ⟨hrefl, hsymm, htrans⟩ => ⟨hrefl, hsymm (by decide), htrans (by decide) (by decide)⟩⟩

/-- C19 (overwrite equals discard-then-append).  On a reachable full buffer, `push` of an
item and `pop` followed by `push` of the same item both succeed and give the same state:
same capacity, head, tail, count and the same content in every slot of the block. -/
theorem overwrite_eq_pop_push {b : CircularBuffer α} (hb : Reachable b)
    (hfull : is_full b = true) (x : α) :
    ∃ b1 bp out bpp, push b x = some b1 ∧ pop b = some (bp, out) ∧ push bp x = some bpp ∧
      bpp = b1 ∧
      bpp.m_capacity = b1.m_capacity ∧ bpp.m_head = b1.m_head ∧ bpp.m_tail = b1.m_tail ∧
      bpp.m_count = b1.m_count ∧ bpp.m_buffer = b1.m_buffer := by
  have hinv := hb.inv
  have hc := hinv.cap_pos
  have heq : b.m_count = b.m_capacity := by simpa [is_full] using hfull
  have h0 : b.m_count ≠ 0 := by omega
  have hp := pop_eq hinv h0
  have hinvp := inv_pop hinv hp
  have hpp := push_eq hinvp x
  have hne : ¬ (b.m_count - 1 = b.m_capacity) := by omega
  have hcnt : b.m_count - 1 + 1 = b.m_count := by omega
  have hsame :
      ({ m_buffer := b.m_buffer.set b.m_tail x
         m_capacity := b.m_capacity
         m_head := if b.m_count - 1 = b.m_capacity then
             ((b.m_head + 1) % b.m_capacity + 1) % b.m_capacity
           else (b.m_head + 1) % b.m_capacity
         m_tail := (b.m_tail + 1) % b.m_capacity
         m_count := if b.m_count - 1 = b.m_capacity then b.m_count - 1
           else b.m_count - 1 + 1 } : CircularBuffer α) =
      { m_buffer := b.m_buffer.set b.m_tail x
        m_capacity := b.m_capacity
        m_head := if b.m_count = b.m_capacity then (b.m_head + 1) % b.m_capacity
          else b.m_head
        m_tail := (b.m_tail + 1) % b.m_capacity
        m_count := if b.m_count = b.m_capacity then b.m_count else b.m_count + 1 } := by
    rw [if_neg hne, if_neg hne, if_pos heq, if_pos heq, hcnt]
  exact ⟨_, _, _, _, push_eq hinv x, hp, hpp, hsame, by rw [hsame], by rw [hsame],
    by rw [hsame], by rw [hsame], by rw [hsame]⟩

/-- Witness of C19 on the full buffer `bufA`. -/
theorem overwrite_eq_pop_push_witness :
    Reachable bufA ∧ is_full bufA = true ∧
      ∃ b1 bp out bpp, push bufA 7 = some b1 ∧ pop bufA = some (bp, out) ∧
        push bp 7 = some bpp ∧ bpp = b1 ∧
        bpp.m_capacity = b1.m_capacity ∧ bpp.m_head = b1.m_head ∧ bpp.m_tail = b1.m_tail ∧
        bpp.m_count = b1.m_count ∧ bpp.m_buffer = b1.m_buffer :=
  ⟨reachable_bufA, rfl, overwrite_eq_pop_push reachable_bufA rfl 7⟩

end CircularBuffer


end ss
